import Mathlib

/-!
Verification of the zimply ZIM-reader core (zimply/zimply.py).

The Python code is shallowly embedded: Python strings are lists of Unicode
scalar values (`Str`), byte buffers are lists of naturals below 256, Python
`while`/`for` loops become fuel-indexed structural recursions (with lemmas
showing the supplied fuel is never exhausted on the loops' actual bounds),
and fallible operations return `Option`/`Except`.
-/

namespace Zimply

/-- A Python string: a sequence of Unicode scalar values. -/
abbrev Str := List Char

/-- Equality of `Except` results is decidable (needed to evaluate the model
on concrete archives). -/
instance {ε α : Type} [DecidableEq ε] [DecidableEq α] :
    DecidableEq (Except ε α) := fun x y =>
  match x, y with
  | .ok a, .ok b =>
    if h : a = b then isTrue (by rw [h]) else isFalse (by simp [h])
  | .error a, .error b =>
    if h : a = b then isTrue (by rw [h]) else isFalse (by simp [h])
  | .ok _, .error _ => isFalse (by simp)
  | .error _, .ok _ => isFalse (by simp)

/-- Python `str.lower()` (scalar-wise lowering, as used on the ASCII
metadata keys and search terms in the source). -/
def pyLower (s : Str) : Str := s.map Char.toLower

/-- Python string comparison `s < t`: lexicographic on code points, a
proper leading segment is smaller. Used by the comparison `found_title < title`
of `_get_entry_by_url`. -/
def lexLt : Str → Str → Bool
  | [], [] => false
  | [], _ :: _ => true
  | _ :: _, [] => false
  | a :: as, b :: bs =>
    if a.toNat < b.toNat then true
    else if b.toNat < a.toNat then false
    else lexLt as bs

/-- `leadsWith t s` holds when `t` is a leading segment of `s`
(helper for Python `str.find` and `str.count`). -/
def leadsWith : Str → Str → Bool
  | [], _ => true
  | _ :: _, [] => false
  | a :: as, b :: bs => a == b && leadsWith as bs

/-- Helper for `strFind`: first position `≥ i` at which `t` leads, else `-1`. -/
def strFindAux (t : Str) : Str → Nat → Int
  | [], i => if leadsWith t [] then Int.ofNat i else -1
  | c :: s', i => if leadsWith t (c :: s') then Int.ofNat i else strFindAux t s' (i + 1)

/-- Python `s.find(t)`: index of the first occurrence of `t` in `s`, `-1` if none. -/
def strFind (s t : Str) : Int := strFindAux t s 0

/-- Helper for `strCount` when the pattern is non-empty: count non-overlapping
occurrences, resuming after each match.  At least one character is consumed
per step, so fuel equal to the scanned string's length never runs out. -/
def countOccAux (t : Str) : Nat → Str → Nat
  | 0, _ => 0
  | _ + 1, [] => 0
  | fuel + 1, c :: s' =>
    if leadsWith t (c :: s') then 1 + countOccAux t fuel (List.drop (t.length - 1) s')
    else countOccAux t fuel s'

/-- Python `s.count(t)`: non-overlapping occurrences (`s.count("")` is `len(s)+1`). -/
def strCount (s t : Str) : Nat :=
  if t = [] then s.length + 1 else countOccAux t s.length s

/-- A membership decomposition: `t` occurs as a contiguous substring of `d`. -/
def SubstrOf (t d : Str) : Prop := ∃ pre post, d = pre ++ t ++ post

/-- Boolean substring test used to decide `SubstrOf`. -/
def containsSub (t : Str) : Str → Bool
  | [] => leadsWith t []
  | c :: d' => leadsWith t (c :: d') || containsSub t d'

/-! ### UTF-8 decoding with Python's `errors="ignore"` handler -/

/-- Lower bound for the second byte of a three-byte sequence (`E0` forbids overlongs). -/
def utf8Lo2 (b : Nat) : Nat := if b = 0xE0 then 0xA0 else 0x80

/-- Upper bound for the second byte of a three-byte sequence (`ED` forbids surrogates). -/
def utf8Hi2 (b : Nat) : Nat := if b = 0xED then 0x9F else 0xBF

/-- Lower bound for the second byte of a four-byte sequence (`F0` forbids overlongs). -/
def utf8Lo3 (b : Nat) : Nat := if b = 0xF0 then 0x90 else 0x80

/-- Upper bound for the second byte of a four-byte sequence (`F4` caps at `U+10FFFF`). -/
def utf8Hi3 (b : Nat) : Nat := if b = 0xF4 then 0x8F else 0xBF

/-- UTF-8 decoding where the bytes of malformed sequences are skipped, the
behaviour of Python's `bytes.decode(..., errors="ignore")` (each skipped byte
is either the errors' leading byte or a stray continuation byte, which the
handler likewise drops, so skipping one byte at a time yields the same
string). The fuel is the number of remaining bytes; each step consumes at
least one byte, so the wrapper's fuel is never exhausted. -/
def utf8DecodeIgnoreAux : Nat → List Nat → List Char
  | 0, _ => []
  | _ + 1, [] => []
  | fuel + 1, b :: rest =>
    if b < 0x80 then Char.ofNat b :: utf8DecodeIgnoreAux fuel rest
    else if b < 0xC2 then utf8DecodeIgnoreAux fuel rest
    else if b < 0xE0 then
      match rest with
      | b1 :: rest' =>
        if 0x80 ≤ b1 ∧ b1 < 0xC0 then
          Char.ofNat ((b - 0xC0) * 0x40 + (b1 - 0x80)) :: utf8DecodeIgnoreAux fuel rest'
        else utf8DecodeIgnoreAux fuel rest
      | [] => []
    else if b < 0xF0 then
      match rest with
      | b1 :: b2 :: rest' =>
        if (utf8Lo2 b ≤ b1 ∧ b1 ≤ utf8Hi2 b) ∧ (0x80 ≤ b2 ∧ b2 < 0xC0) then
          Char.ofNat ((b - 0xE0) * 0x1000 + (b1 - 0x80) * 0x40 + (b2 - 0x80)) ::
            utf8DecodeIgnoreAux fuel rest'
        else utf8DecodeIgnoreAux fuel rest
      | _ => utf8DecodeIgnoreAux fuel rest
    else if b < 0xF5 then
      match rest with
      | b1 :: b2 :: b3 :: rest' =>
        if (utf8Lo3 b ≤ b1 ∧ b1 ≤ utf8Hi3 b) ∧ (0x80 ≤ b2 ∧ b2 < 0xC0) ∧
            (0x80 ≤ b3 ∧ b3 < 0xC0) then
          Char.ofNat ((b - 0xF0) * 0x40000 + (b1 - 0x80) * 0x1000 + (b2 - 0x80) * 0x40 +
              (b3 - 0x80)) :: utf8DecodeIgnoreAux fuel rest'
        else utf8DecodeIgnoreAux fuel rest
      | _ => utf8DecodeIgnoreAux fuel rest
    else utf8DecodeIgnoreAux fuel rest

/-- Decode a byte sequence with malformed bytes ignored (dropped). -/
def utf8DecodeIgnore (stream : List Nat) : List Char :=
  utf8DecodeIgnoreAux stream.length stream

/-- `read_zero_terminated(file, encoding)`: consume bytes up to (excluding) the
first `0x00` and decode them, `errors="ignore"`.  The byte stream from the
current file position is the argument; the archive's default UTF-8 encoding
is modelled. -/
def read_zero_terminated (stream : List Nat) : Str :=
  utf8DecodeIgnore (stream.takeWhile (fun b => b != 0))

/-- The canonical UTF-8 encoding of a Unicode scalar value: the byte
sequence the decoder above recognises for that scalar.  Used to state what
the ignoring decoder keeps and what it drops. -/
def utf8EncodeNat (v : Nat) : List Nat :=
  if v < 0x80 then [v]
  else if v < 0x800 then [0xC0 + v / 0x40, 0x80 + v % 0x40]
  else if v < 0x10000 then
    [0xE0 + v / 0x1000, 0x80 + v / 0x40 % 0x40, 0x80 + v % 0x40]
  else
    [0xF0 + v / 0x40000, 0x80 + v / 0x1000 % 0x40, 0x80 + v / 0x40 % 0x40,
      0x80 + v % 0x40]

/-! ### Cluster offset table and blob extraction (`ClusterData`) -/

/-- `unpack("<I", buffer.read(4))`: little-endian u32 at `pos`; `none` when
fewer than four bytes remain (Python raises `struct.error`). -/
def readU32 (body : List Nat) (pos : Nat) : Option Nat :=
  match body.get? pos, body.get? (pos + 1), body.get? (pos + 2), body.get? (pos + 3) with
  | some b0, some b1, some b2, some b3 =>
    some (b0 + 256 * b1 + 65536 * b2 + 16777216 * b3)
  | _, _, _, _ => none

/-- Read `n` consecutive little-endian u32 values starting at `pos`. -/
def readU32s (body : List Nat) : Nat → Nat → Option (List Nat)
  | _, 0 => some []
  | pos, n + 1 =>
    match readU32 body pos, readU32s body (pos + 4) n with
    | some v, some rest => some (v :: rest)
    | _, _ => none

/-- `ClusterData._read_offsets`: read the first u32 `offset0`, set
`number_of_blobs = offset0 / 4`, then read `number_of_blobs - 1` further u32
offsets (Python's `range(number_of_blobs - 1)` is empty when it is negative,
matching truncated subtraction).  `body` is the cluster body: the bytes after
the `compressionType` byte, already decompressed when compressed. -/
def read_offsets (body : List Nat) : Option (List Nat) :=
  match readU32 body 0 with
  | none => none
  | some offset0 =>
    match readU32s body 4 (offset0 / 4 - 1) with
    | none => none
    | some rest => some (offset0 :: rest)

/-- The `IOError` message raised by `ClusterData.read_blob`. -/
def blobRangeError : String := "Blob index exceeds number of blobs available"

/-- `ClusterData.read_blob(blob_index)`: fail when
`blob_index >= len(offsets) - 1`, else return the bytes of
`[offsets[blob_index], offsets[blob_index+1])` relative to the body start.
When the upper offset is below the lower one Python hands a negative size to
`read`, which a `BytesIO` treats as read-to-end; that branch is unreachable
for well-formed offset tables. -/
def read_blob (body : List Nat) (offsets : List Nat) (blob_index : Nat) :
    Except String (List Nat) :=
  if blob_index ≥ offsets.length - 1 then .error blobRangeError
  else
    let start := offsets.getD blob_index 0
    let stop := offsets.getD (blob_index + 1) 0
    if start ≤ stop then .ok ((body.drop start).take (stop - start))
    else .ok (body.drop start)

/-- `ClusterData.__init__`: `self.compressed = cluster_info['compressionType'] == 4`.
Every other value, including 0, 2 (zlib), 3 (bzip2) and 5 (zstd), leaves the
flag unset and the body is consumed as-is. -/
def clusterCompressed (compressionType : Nat) : Bool := compressionType == 4

/-- Cluster construction: decode the compression flag and parse the blob
offset table from the body.  No compression-type validation is performed by
the source; `none` only models a `struct.error` from a truncated offset
table. -/
def clusterInit (compressionType : Nat) (body : List Nat) :
    Option (Bool × List Nat) :=
  match read_offsets body with
  | none => none
  | some offsets => some (clusterCompressed compressionType, offsets)

/-! ### The archive façade (`ZIMFile`) -/

/-- The discriminated payload of a directory entry: `redirectIndex` is present
exactly when the on-disk `mimetype` field is `0xFFFF`. -/
inductive EntryKind where
  | article (mimetype clusterNumber blobNumber : Nat)
  | redirect (redirectIndex : Nat)
deriving DecidableEq

/-- A decoded directory entry (`nspace` is the source's `namespace` field,
decoded to a string of at most one scalar). Fields not consulted by the
modelled operations (`revision`, `parameters`) are omitted. -/
structure DirEntry where
  nspace : Str
  url : Str
  title : Str
  kind : EntryKind
deriving DecidableEq

/-- The third component of an `Article` triple: a mimetype string for an
article, the numeric `redirectIndex` for an unfollowed redirect. -/
inductive MimeField where
  | idx (n : Nat)
  | str (s : Str)
deriving DecidableEq

/-- The `Article` namedtuple `(data, namespace, mimetype)`; `data` is `none`
for an unfollowed redirect. -/
structure Article where
  data : Option (List Nat)
  nspace : Str
  mimetype : MimeField
deriving DecidableEq

/-- An opened ZIM archive.  `entryAt i` is the directory entry decoded from
the offset stored at position `i` of the URL-pointer table; for
`i ≥ articleCount` the read runs past that table and decodes whatever bytes
happen to follow it, so such entries are unconstrained.  `blob c b` abstracts
`ZIMFile._read_blob` (cluster-pointer lookup plus `ClusterData.read_blob`,
whose internals are modelled separately above); `none` models an `IOError`. -/
structure ZIMArchive where
  articleCount : Nat
  entryAt : Nat → DirEntry
  mimetype_list : List Str
  blob : Nat → Nat → Option (List Nat)

/-- `ZIMFile.read_directory_entry_by_index`. -/
def read_directory_entry_by_index (a : ZIMArchive) (index : Nat) : DirEntry :=
  a.entryAt index

/-- `full_url(namespace, url) = str(namespace) + '/' + str(url)`. -/
def full_url (ns url : Str) : Str := ns ++ '/' :: url

/-- The binary-search comparison key of the entry at directory position `i`. -/
def entryFullUrl (a : ZIMArchive) (i : Nat) : Str :=
  full_url (a.entryAt i).nspace (a.entryAt i).url

/-- Errors surfaced while materialising an article: a blob-read `IOError`, an
`IndexError` on the mimetype list, or exhaustion of the recursion depth
(Python's `RecursionError`; the source has no redirect-cycle guard, so the
recursion depth is made explicit as fuel). -/
inductive ReadError where
  | blobError
  | mimetypeError
  | stackOverflow
deriving DecidableEq

/-- `ZIMFile._get_article_by_index(index, follow_redirect)`.  A redirect entry
is chased recursively when `follow_redirect` is set, otherwise a null-bodied
`Article` carrying the redirect index is returned; an article entry resolves
its blob and mimetype string. -/
def get_article_by_index (a : ZIMArchive) :
    Nat → Nat → Bool → Except ReadError Article
  | 0, _, _ => .error .stackOverflow
  | fuel + 1, index, follow_redirect =>
    let entry := read_directory_entry_by_index a index
    match entry.kind with
    | .redirect redirectIndex =>
      if follow_redirect then
        get_article_by_index a fuel redirectIndex follow_redirect
      else .ok ⟨none, entry.nspace, .idx redirectIndex⟩
    | .article mimetype clusterNumber blobNumber =>
      match a.blob clusterNumber blobNumber with
      | none => .error .blobError
      | some data =>
        match a.mimetype_list.get? mimetype with
        | none => .error .mimetypeError
        | some ms => .ok ⟨some data, entry.nspace, .str ms⟩

/-- The `while front <= end and not found` loop of `_get_entry_by_url`
(binary branch).  `middle = floor((front + end) / 2)`; on a hit the entry is
re-read and returned with `middle`.  The fuel only bounds the iteration count
(the top-level call passes `articleCount + 2`, which lemma
`searchLoop_fuel_irrelevant` certifies is never binding since the interval shrinks
every iteration). -/
def searchLoop (a : ZIMArchive) (key : Str) :
    Nat → Int → Int → Option (DirEntry × Nat)
  | 0, _, _ => none
  | fuel + 1, front, en =>
    if front ≤ en then
      let middle := (front + en) / 2
      let entry := read_directory_entry_by_index a middle.toNat
      if full_url entry.nspace entry.url = key then
        some (read_directory_entry_by_index a middle.toNat, middle.toNat)
      else if lexLt (full_url entry.nspace entry.url) key then
        searchLoop a key fuel (middle + 1) en
      else
        searchLoop a key fuel front (middle - 1)
    else none

/-- The same loop, instrumented to record every directory index probed
(`middle` of each iteration, in order).  Lemma `searchLoop_result_probed`
relates it to `searchLoop`. -/
def searchLoopProbes (a : ZIMArchive) (key : Str) :
    Nat → Int → Int → List Nat
  | 0, _, _ => []
  | fuel + 1, front, en =>
    if front ≤ en then
      let middle := (front + en) / 2
      let entry := read_directory_entry_by_index a middle.toNat
      if full_url entry.nspace entry.url = key then [middle.toNat]
      else if lexLt (full_url entry.nspace entry.url) key then
        middle.toNat :: searchLoopProbes a key fuel (middle + 1) en
      else
        middle.toNat :: searchLoopProbes a key fuel front (middle - 1)
    else []

/-- The `for idx in range(articleCount)` loop of `_get_entry_by_url`
(linear branch): return the first entry whose `url` and `namespace` both
match, with its index; `remaining` counts the iterations still to run. -/
def linearLoop (a : ZIMArchive) (ns url : Str) :
    Nat → Nat → Option (DirEntry × Nat)
  | 0, _ => none
  | remaining + 1, idx =>
    let entry := read_directory_entry_by_index a idx
    if entry.url = url ∧ entry.nspace = ns then some (entry, idx)
    else linearLoop a ns url remaining (idx + 1)

/-- `ZIMFile._get_entry_by_url(namespace, url, linear)`:  the linear branch
scans all `articleCount` indices; the binary branch searches with
`front = 0`, `end = len(self) = articleCount`. -/
def get_entry_by_url (a : ZIMArchive) (ns url : Str) (linear : Bool) :
    Option (DirEntry × Nat) :=
  if linear then linearLoop a ns url a.articleCount 0
  else searchLoop a (full_url ns url) (a.articleCount + 2) 0 (a.articleCount : Int)

/-- `ZIMFile.get_article_by_url`: look the entry up (binary search), then —
because the source guards with the truthiness test `if idx:` — resolve the
article only when the returned index is a non-`None` **non-zero** value;
both a miss and a hit at directory index 0 yield `None`.  Errors raised by
`_get_article_by_index` propagate. -/
def get_article_by_url (a : ZIMArchive) (fuel : Nat) (ns url : Str)
    (follow_redirect : Bool) : Except ReadError (Option Article) :=
  match get_entry_by_url a ns url false with
  | some (_, idx) =>
    if idx = 0 then .ok none
    else (get_article_by_index a fuel idx follow_redirect).map some
  | none => .ok none

/-- The backwards metadata loop: process indices `n-1, n-2, …, 0`, collecting
`(url.lower(), article.data)` while the namespace is `M` and stopping at the
first other namespace.  The resulting association list is in write order
(highest index first); as later writes of a Python dict win, a duplicate key's
final value is the deepest occurrence.  Errors from `_get_article_by_index`
propagate. -/
def metadataAux (a : ZIMArchive) (fuel : Nat) :
    Nat → Except ReadError (List (Str × Option (List Nat)))
  | 0 => .ok []
  | n + 1 =>
    let entry := read_directory_entry_by_index a n
    if entry.nspace = "M".data then
      match get_article_by_index a fuel n true with
      | .error e => .error e
      | .ok art =>
        match metadataAux a fuel n with
        | .error e => .error e
        | .ok rest => .ok ((pyLower entry.url, art.data) :: rest)
    else .ok []

/-- `ZIMFile.metadata()`: iterate backwards from `articleCount - 1`. -/
def metadata (a : ZIMArchive) (fuel : Nat) :
    Except ReadError (List (Str × Option (List Nat))) :=
  metadataAux a fuel a.articleCount

/-! ### The BM25 ranker -/

/-- Insertion into a Python dict modelled as an insertion-ordered association
list: an existing key is updated in place, a new key is appended. -/
def dictInsert (l : List (Str × Nat)) (k : Str) (v : Nat) : List (Str × Nat) :=
  if l.any (fun p => p.1 == k) then
    l.map (fun p => if p.1 == k then (k, v) else p)
  else l ++ [(k, v)]

/-- Build a dict from a sequence of key/value pairs, later pairs winning. -/
def pyDict (entries : List (Str × Nat)) : List (Str × Nat) :=
  entries.foldl (fun d p => dictInsert d p.1 p.2) []

/-- `num_words = dict((hash(doc), doc.count(" ") + 1) for doc in corpus)`.
The CPython string hash is modelled as injective: the document itself keys
the dict (equal strings share a hash; a collision between distinct strings is
implementation-defined and not representable). -/
def numWordsDict (corpus : List Str) : List (Str × Nat) :=
  pyDict (corpus.map (fun doc => (doc, strCount doc " ".data + 1)))

/-- The `query_terms` list: each (already lowercased) term paired with the
tally of (already lowercased) documents for which `document.find(term) > -1`. -/
def queryTerms (query corpus : List Str) : List (Str × Nat) :=
  query.map (fun term =>
    (term, corpus.foldl
      (fun frequency document =>
        frequency + if strFind document term > -1 then 1 else 0) 0))

/-- `avg_doc_len = sum(num_words.values()) / len(corpus)`. -/
noncomputable def avgDocLen (num_words : List (Str × Nat)) (corpusLen : Nat) : ℝ :=
  (num_words.map (fun p => (p.2 : ℝ))).sum / corpusLen

/-- The inner scoring loop of `BM25.calculate_scores` for one document:
sum over `query_terms` of `idf * (doc_k1 / doc_b)` with the source's exact
(unparenthesised) denominator `doc_frequency + k1 * 1 - b + b * (nw / avgdl)`.
Real arithmetic stands in for IEEE floats.  The `num_words` lookup cannot
miss for a corpus document (lemma `numWordsDict_lookup`); the model defaults
a missing key to 0 where Python would raise `KeyError`. -/
noncomputable def docScore (k1 b : ℝ) (corpus_size : Nat)
    (query_terms : List (Str × Nat)) (num_words : List (Str × Nat))
    (avg_doc_len : ℝ) (document : Str) : ℝ :=
  query_terms.foldl (fun total_score tf =>
    let frequency := tf.2
    let idf := Real.log ((frequency + 0.5) / (corpus_size - (frequency : ℝ) + 0.5))
    let doc_frequency := strCount document tf.1
    let num_words_doc := (List.lookup document num_words).getD 0
    let doc_k1 := (doc_frequency : ℝ) * (k1 + 1)
    let doc_b := (doc_frequency : ℝ) + k1 * 1 - b + b * ((num_words_doc : ℝ) / avg_doc_len)
    total_score + idf * (doc_k1 / doc_b)) 0

/-- `BM25.calculate_scores(query, corpus)`: lowercase both, build the word
counts, the average document length and the per-term document frequencies,
then score every document in corpus order.  `none` models the
`ZeroDivisionError` an empty corpus raises at `avg_doc_len`. -/
noncomputable def calculate_scores (k1 b : ℝ) (query corpus : List Str) :
    Option (List ℝ) :=
  if corpus = [] then none
  else
    let corpus_size := corpus.length
    let query' := query.map pyLower
    let corpus' := corpus.map pyLower
    let num_words := numWordsDict corpus'
    let avg_doc_len := avgDocLen num_words corpus.length
    let query_terms := queryTerms query' corpus'
    some (corpus'.map (docScore k1 b corpus_size query_terms num_words avg_doc_len))

/-! ### Concrete archives used in the evaluative theorems below -/


/-- An archive holding exactly one article entry, `A/hello`, at directory
index 0 (indices past the table decode to an unrelated entry). -/
def archOne : ZIMArchive where
  articleCount := 1
  entryAt := fun i =>
    if i = 0 then ⟨"A".data, "hello".data, "".data, .article 0 0 0⟩
    else ⟨"Z".data, "zz".data, "".data, .article 0 0 0⟩
  mimetype_list := ["text/html".data]
  blob := fun _ _ => some [104, 105]

/-- An archive whose directory is the single entry `A/a`, while the bytes
just past the URL-pointer table happen to decode to an entry reading `A/b`. -/
def archJunk : ZIMArchive where
  articleCount := 1
  entryAt := fun i =>
    if i = 0 then ⟨"A".data, "a".data, "".data, .article 0 0 0⟩
    else ⟨"A".data, "b".data, "".data, .article 1 1 1⟩
  mimetype_list := []
  blob := fun _ _ => none

/-- A two-entry archive sorted by full url: `A/a` then `A/b`. -/
def archSorted : ZIMArchive where
  articleCount := 2
  entryAt := fun i =>
    if i = 0 then ⟨"A".data, "a".data, "".data, .article 0 0 0⟩
    else if i = 1 then ⟨"A".data, "b".data, "".data, .article 0 0 1⟩
    else ⟨"Z".data, "zz".data, "".data, .article 0 0 0⟩
  mimetype_list := ["text/html".data]
  blob := fun _ _ => some [1]

/-- A three-entry archive whose two highest directory indices are metadata
entries (`M/Language`, `M/Title`) below an article entry `A/foo`. -/
def archMeta : ZIMArchive where
  articleCount := 3
  entryAt := fun i =>
    if i = 0 then ⟨"A".data, "foo".data, "".data, .article 0 0 0⟩
    else if i = 1 then ⟨"M".data, "Language".data, "".data, .article 0 0 1⟩
    else ⟨"M".data, "Title".data, "".data, .article 0 0 2⟩
  mimetype_list := ["text/plain".data]
  blob := fun _ b => if b = 1 then some [1, 2, 3] else some [9]

/-- The two metadata articles of `archMeta`, ordered from the highest
directory index (`M/Title`) downwards. -/
def archMetaArts : Nat → Article := fun j =>
  if j = 0 then ⟨some [9], "M".data, .str "text/plain".data⟩
  else ⟨some [1, 2, 3], "M".data, .str "text/plain".data⟩

/-- An archive whose entry 0 is a redirect to itself. -/
def archCycle : ZIMArchive where
  articleCount := 1
  entryAt := fun _ => ⟨"A".data, "x".data, "".data, .redirect 0⟩
  mimetype_list := []
  blob := fun _ _ => none

/-! ### Order theory for `lexLt` -/

/-- Characters with equal code points are equal. -/
theorem char_toNat_inj {a b : Char} (h : a.toNat = b.toNat) : a = b :=
  Char.eq_of_val_eq (UInt32.ext h)

/-- `lexLt` is irreflexive. -/
theorem lexLt_irrefl : ∀ s : Str, lexLt s s = false
  | [] => rfl
  | a :: as => by simp [lexLt, lexLt_irrefl as]

/-- `lexLt` is asymmetric. -/
theorem lexLt_asymm : ∀ s t : Str, lexLt s t = true → lexLt t s = false := by
  intro s
  induction s with
  | nil =>
    intro t h
    cases t with
    | nil => rfl
    | cons b bs => simp [lexLt]
  | cons a as ih =>
    intro t h
    cases t with
    | nil => simp [lexLt] at h
    | cons b bs =>
      simp only [lexLt] at h ⊢
      rcases Nat.lt_trichotomy a.toNat b.toNat with hlt | heq | hgt
      · rw [if_neg (Nat.lt_asymm hlt), if_pos hlt]
      · rw [if_neg (heq ▸ Nat.lt_irrefl _), if_neg (heq ▸ Nat.lt_irrefl _)] at h ⊢
        exact ih bs h
      · rw [if_neg (Nat.lt_asymm hgt), if_pos hgt] at h
        exact absurd h (by simp)

/-- `lexLt` is a total comparison: two strings are ordered or equal. -/
theorem lexLt_trichotomy : ∀ s t : Str,
    lexLt s t = true ∨ s = t ∨ lexLt t s = true := by
  intro s
  induction s with
  | nil =>
    intro t
    cases t with
    | nil => right; left; rfl
    | cons b bs => left; rfl
  | cons a as ih =>
    intro t
    cases t with
    | nil => right; right; rfl
    | cons b bs =>
      rcases Nat.lt_trichotomy a.toNat b.toNat with hlt | heq | hgt
      · left; simp [lexLt, hlt]
      · have hab : a = b := char_toNat_inj heq
        subst hab
        rcases ih bs with h | h | h
        · left; simp [lexLt, h]
        · right; left; rw [h]
        · right; right; simp [lexLt, h]
      · right; right; simp [lexLt, hgt]

/-- Strictly smaller strings are distinct. -/
theorem ne_of_lexLt {s t : Str} (h : lexLt s t = true) : s ≠ t := by
  intro he
  subst he
  rw [lexLt_irrefl] at h
  exact absurd h (by simp)

/-- `full_url` is injective as long as neither namespace contains `'/'`
(namespaces are single tag characters such as `A` or `M`). -/
theorem full_url_inj : ∀ {ns1 : Str} (url1 : Str) {ns2 : Str} (url2 : Str),
    '/' ∉ ns1 → '/' ∉ ns2 → full_url ns1 url1 = full_url ns2 url2 →
    ns1 = ns2 ∧ url1 = url2 := by
  intro ns1
  induction ns1 with
  | nil =>
    intro url1 ns2 url2 _ h2 h
    cases ns2 with
    | nil =>
      refine ⟨rfl, ?_⟩
      simpa [full_url] using h
    | cons b bs =>
      exfalso
      simp only [full_url, List.nil_append, List.cons_append, List.cons.injEq] at h
      exact h2 (h.1 ▸ List.mem_cons_self b bs)
  | cons a as ih =>
    intro url1 ns2 url2 h1 h2 h
    cases ns2 with
    | nil =>
      exfalso
      simp only [full_url, List.nil_append, List.cons_append, List.cons.injEq] at h
      exact h1 (h.1 ▸ List.mem_cons_self a as)
    | cons b bs =>
      simp only [full_url, List.cons_append, List.cons.injEq] at h
      obtain ⟨hab, hrest⟩ := h
      have h1' : '/' ∉ as := fun hm => h1 (List.mem_cons_of_mem a hm)
      have h2' : '/' ∉ bs := fun hm => h2 (List.mem_cons_of_mem b hm)
      obtain ⟨hns, hurl⟩ := ih url1 url2 h1' h2' hrest
      exact ⟨by rw [hab, hns], hurl⟩

/-! ### Binary and linear search lemmas -/

/-- The fuel of `searchLoop` is irrelevant as soon as it exceeds the size of
the search interval: the loop always terminates by crossing its bounds first,
so the top-level fuel `articleCount + 2` never cuts the search short. -/
theorem searchLoop_fuel_irrelevant (a : ZIMArchive) (key : Str) :
    ∀ (fuel1 fuel2 : Nat) (front en : Int),
      (en + 1 - front).toNat < fuel1 → (en + 1 - front).toNat < fuel2 →
      searchLoop a key fuel1 front en = searchLoop a key fuel2 front en := by
  intro fuel1
  induction fuel1 with
  | zero => intro fuel2 front en h1; omega
  | succ f1 ih =>
    intro fuel2 front en h1 h2
    match fuel2, h2 with
    | f2 + 1, h2 =>
      simp only [searchLoop]
      by_cases hfe : front ≤ en
      · rw [if_pos hfe, if_pos hfe]
        have hmid1 : front ≤ (front + en) / 2 := by omega
        have hmid2 : (front + en) / 2 ≤ en := by omega
        split
        · rfl
        · split
          · exact ih f2 ((front + en) / 2 + 1) en (by omega) (by omega)
          · exact ih f2 front ((front + en) / 2 - 1) (by omega) (by omega)
      · rw [if_neg hfe, if_neg hfe]

/-- The comparison key computed by the search loop is `entryFullUrl`. -/
theorem entryFullUrl_eq (a : ZIMArchive) (i : Nat) :
    full_url (a.entryAt i).nspace (a.entryAt i).url = entryFullUrl a i := rfl

/-- When the key is the full url of directory position `t` and the search
interval still brackets `t`, the binary search returns entry `t` with index
`t`.  The directory is assumed strictly sorted by full url. -/
theorem searchLoop_found (a : ZIMArchive) (t : Nat)
    (hsort : ∀ j, j < a.articleCount → ∀ i, i < j →
      lexLt (entryFullUrl a i) (entryFullUrl a j) = true)
    (ht : t < a.articleCount) :
    ∀ (fuel : Nat) (front en : Int), (en + 1 - front).toNat < fuel →
      0 ≤ front → front ≤ (t : Int) → (t : Int) ≤ en → en ≤ (a.articleCount : Int) →
      searchLoop a (entryFullUrl a t) fuel front en = some (a.entryAt t, t) := by
  intro fuel
  induction fuel with
  | zero => intro front en h1; omega
  | succ f ih =>
    intro front en hfuel hf0 hfr hte hen
    have hfe : front ≤ en := le_trans hfr hte
    have hmlo : front ≤ (front + en) / 2 := by omega
    have hmhi : (front + en) / 2 ≤ en := by omega
    have hmN : ((front + en) / 2).toNat < a.articleCount := by omega
    simp only [searchLoop, if_pos hfe, read_directory_entry_by_index, entryFullUrl_eq]
    by_cases heq : entryFullUrl a ((front + en) / 2).toNat = entryFullUrl a t
    · rw [if_pos heq]
      have hmt : ((front + en) / 2).toNat = t := by
        rcases Nat.lt_trichotomy ((front + en) / 2).toNat t with hlt | he | hgt
        · exact absurd (heq ▸ hsort t ht _ hlt) (by simp [lexLt_irrefl])
        · exact he
        · exact absurd (heq ▸ hsort _ hmN t hgt) (by simp [lexLt_irrefl])
      rw [hmt]
    · rw [if_neg heq]
      by_cases hlt : lexLt (entryFullUrl a ((front + en) / 2).toNat) (entryFullUrl a t) = true
      · rw [if_pos hlt]
        have hmt : ((front + en) / 2).toNat < t := by
          rcases Nat.lt_trichotomy ((front + en) / 2).toNat t with h | h | h
          · exact h
          · exact absurd (h ▸ hlt) (by simp [lexLt_irrefl])
          · have := lexLt_asymm _ _ (hsort _ hmN t h)
            rw [hlt] at this
            exact absurd this (by simp)
        exact ih ((front + en) / 2 + 1) en (by omega) (by omega) (by omega) hte hen
      · rw [if_neg hlt]
        have hgt : lexLt (entryFullUrl a t) (entryFullUrl a ((front + en) / 2).toNat) = true := by
          rcases lexLt_trichotomy (entryFullUrl a ((front + en) / 2).toNat)
            (entryFullUrl a t) with h | h | h
          · exact absurd h hlt
          · exact absurd h heq
          · exact h
        have hmt : t < ((front + en) / 2).toNat := by
          rcases Nat.lt_trichotomy t ((front + en) / 2).toNat with h | h | h
          · exact h
          · exact absurd (h ▸ hgt) (by simp [lexLt_irrefl])
          · have := lexLt_asymm _ _ (hsort t ht _ h)
            rw [hgt] at this
            exact absurd this (by simp)
        exact ih front ((front + en) / 2 - 1) (by omega) hf0 hfr (by omega) (by omega)

/-- When the key is absent and not greater than the last entry's full url,
the binary search stays inside the directory and returns nothing. -/
theorem searchLoop_miss (a : ZIMArchive) (key : Str)
    (habsent : ∀ j, j < a.articleCount → entryFullUrl a j ≠ key)
    (hN : 0 < a.articleCount)
    (hle : lexLt (entryFullUrl a (a.articleCount - 1)) key = false) :
    ∀ (fuel : Nat) (front en : Int), 0 ≤ front →
      front ≤ (a.articleCount : Int) - 1 → en ≤ (a.articleCount : Int) →
      searchLoop a key fuel front en = none := by
  intro fuel
  induction fuel with
  | zero => intro front en _ _ _; rfl
  | succ f ih =>
    intro front en hf0 hfN hen
    by_cases hfe : front ≤ en
    · have hmlo : front ≤ (front + en) / 2 := by omega
      have hmhi : (front + en) / 2 ≤ en := by omega
      have hmN : ((front + en) / 2).toNat < a.articleCount := by omega
      simp only [searchLoop, if_pos hfe, read_directory_entry_by_index, entryFullUrl_eq]
      rw [if_neg (habsent _ hmN)]
      by_cases hlt : lexLt (entryFullUrl a ((front + en) / 2).toNat) key = true
      · rw [if_pos hlt]
        have hne : ((front + en) / 2).toNat ≠ a.articleCount - 1 := by
          intro he
          rw [he, hle] at hlt
          exact absurd hlt (by simp)
        exact ih ((front + en) / 2 + 1) en (by omega) (by omega) hen
      · rw [if_neg hlt]
        exact ih front ((front + en) / 2 - 1) hf0 hfN (by omega)
    · simp only [searchLoop, if_neg hfe]

/-- The linear scan returns the first matching entry. -/
theorem linearLoop_found (a : ZIMArchive) (ns url : Str) (t : Nat)
    (hmatch : (a.entryAt t).url = url ∧ (a.entryAt t).nspace = ns)
    (hfirst : ∀ i, i < t → ¬((a.entryAt i).url = url ∧ (a.entryAt i).nspace = ns)) :
    ∀ (remaining idx : Nat), idx ≤ t → t < idx + remaining →
      linearLoop a ns url remaining idx = some (a.entryAt t, t) := by
  intro remaining
  induction remaining with
  | zero => intro idx h1 h2; omega
  | succ r ih =>
    intro idx hle hlt
    simp only [linearLoop, read_directory_entry_by_index]
    by_cases he : idx = t
    · subst he
      rw [if_pos hmatch]
    · rw [if_neg (hfirst idx (by omega))]
      exact ih (idx + 1) (by omega) (by omega)

/-- The linear scan over entirely non-matching indices returns nothing. -/
theorem linearLoop_miss (a : ZIMArchive) (ns url : Str)
    (habs : ∀ i, i < a.articleCount →
      ¬((a.entryAt i).url = url ∧ (a.entryAt i).nspace = ns)) :
    ∀ (remaining idx : Nat), idx + remaining ≤ a.articleCount →
      linearLoop a ns url remaining idx = none := by
  intro remaining
  induction remaining with
  | zero => intro idx _; rfl
  | succ r ih =>
    intro idx hbnd
    simp only [linearLoop, read_directory_entry_by_index]
    rw [if_neg (habs idx (by omega))]
    exact ih (idx + 1) (by omega)

/-- Every index recorded by the instrumented loop stays within the initial
interval bounds, hence (from the top-level call) within `[0, articleCount]`. -/
theorem searchLoopProbes_bounded (a : ZIMArchive) (key : Str) (bound : Nat) :
    ∀ (fuel : Nat) (front en : Int) (i : Nat), 0 ≤ front → en ≤ (bound : Int) →
      i ∈ searchLoopProbes a key fuel front en → i ≤ bound := by
  intro fuel
  induction fuel with
  | zero => intro front en i _ _ h; simp [searchLoopProbes] at h
  | succ f ih =>
    intro front en i hf0 hen hmem
    by_cases hfe : front ≤ en
    · have hmlo : front ≤ (front + en) / 2 := by omega
      have hmhi : (front + en) / 2 ≤ en := by omega
      simp only [searchLoopProbes, if_pos hfe] at hmem
      split at hmem
      · rcases List.mem_singleton.mp hmem with h
        omega
      · split at hmem
        · rcases List.mem_cons.mp hmem with h | h
          · omega
          · exact ih ((front + en) / 2 + 1) en i (by omega) hen h
        · rcases List.mem_cons.mp hmem with h | h
          · omega
          · exact ih front ((front + en) / 2 - 1) i hf0 (by omega) h
    · simp [searchLoopProbes, if_neg hfe] at hmem

/-- The index returned by `searchLoop` was probed: the instrumented loop is
the same loop. -/
theorem searchLoop_result_probed (a : ZIMArchive) (key : Str) :
    ∀ (fuel : Nat) (front en : Int) (e : DirEntry) (idx : Nat),
      searchLoop a key fuel front en = some (e, idx) →
      idx ∈ searchLoopProbes a key fuel front en := by
  intro fuel
  induction fuel with
  | zero => intro front en e idx h; simp [searchLoop] at h
  | succ f ih =>
    intro front en e idx h
    by_cases hfe : front ≤ en
    · simp only [searchLoop, if_pos hfe] at h
      simp only [searchLoopProbes, if_pos hfe]
      split at h
      next hcond =>
        rw [Option.some.injEq, Prod.mk.injEq] at h
        obtain ⟨_, hidx⟩ := h
        subst hidx
        rw [if_pos hcond]
        simp
      next hcond =>
        rw [if_neg hcond]
        split at h
        next hcond2 =>
          rw [if_pos hcond2]
          exact List.mem_cons_of_mem _ (ih ((front + en) / 2 + 1) en e idx h)
        next hcond2 =>
          rw [if_neg hcond2]
          exact List.mem_cons_of_mem _ (ih front ((front + en) / 2 - 1) e idx h)
    · simp [searchLoop, if_neg hfe] at h


/-- C1: `get_article_by_url` guards the looked-up index with the Python
truthiness test `if idx:`, so the entry stored at directory index 0 — here a
perfectly retrievable article, as the second conjunct shows — is reported as
`None` exactly like a genuine miss, contradicting the claim that a present
`(namespace, url)` always yields a non-null Article. -/
theorem get_article_by_url_misses_index_zero :
    get_entry_by_url archOne "A".data "hello".data false =
      some (⟨"A".data, "hello".data, "".data, .article 0 0 0⟩, 0) ∧
    get_article_by_index archOne 9 0 true =
      .ok ⟨some [104, 105], "A".data, .str "text/html".data⟩ ∧
    get_article_by_url archOne 9 "A".data "hello".data true = .ok none := by
  refine ⟨by decide, by decide, by decide⟩

/-- C6: on a redirect cycle (entry 0 redirects to itself)
`_get_article_by_index` recurses unboundedly: whatever recursion depth the
interpreter grants, the call consumes it all and dies with a
`RecursionError`; no bounded chase or `RedirectCycle` error exists in the
code. -/
theorem redirect_cycle_recursion_unbounded (fuel : Nat) :
    get_article_by_index archCycle fuel 0 true = .error .stackOverflow := by
  induction fuel with
  | zero => rfl
  | succ f ih =>
    simpa [get_article_by_index, read_directory_entry_by_index, archCycle] using ih

/-- C2 counterexample: `archJunk`'s directory (its one entry `A/a`) is
strictly sorted and duplicate-free, yet for the absent key `A/b` the linear
scan answers `(None, None)` while the binary search — whose final probe reads
index 1, one past the directory — returns the junk entry decoded there. -/
theorem search_linear_binary_disagree :
    (∀ j, j < archJunk.articleCount → ∀ i, i < j →
      lexLt (entryFullUrl archJunk i) (entryFullUrl archJunk j) = true) ∧
    get_entry_by_url archJunk "A".data "b".data true = none ∧
    get_entry_by_url archJunk "A".data "b".data false =
      some (⟨"A".data, "b".data, "".data, .article 1 1 1⟩, 1) := by
  refine ⟨by decide, by decide, by decide⟩

/-- C2 (amended): over a directory strictly sorted (hence duplicate-free) by
full url, with single-character namespaces free of `'/'`, the linear scan and
the binary search agree on every query key that does not exceed the last
entry's full url: the same `(entry, index)` for a present key, `(None, None)`
for an absent one.  (For a key greater than every entry the binary search's
last probe reads one index past the directory and its result depends on
whatever bytes follow the table.) -/
theorem get_entry_by_url_linear_eq_binary (a : ZIMArchive) (ns url : Str)
    (hsort : ∀ j, j < a.articleCount → ∀ i, i < j →
      lexLt (entryFullUrl a i) (entryFullUrl a j) = true)
    (hnsdir : ∀ i, i < a.articleCount → '/' ∉ (a.entryAt i).nspace)
    (hns : '/' ∉ ns)
    (hN : 0 < a.articleCount)
    (hle : lexLt (entryFullUrl a (a.articleCount - 1)) (full_url ns url) = false) :
    get_entry_by_url a ns url true = get_entry_by_url a ns url false := by
  by_cases hex : ∃ t, t < a.articleCount ∧ entryFullUrl a t = full_url ns url
  · obtain ⟨t, ht, hkey⟩ := hex
    have hbin : get_entry_by_url a ns url false = some (a.entryAt t, t) := by
      show searchLoop a (full_url ns url) (a.articleCount + 2) 0 (a.articleCount : Int) = _
      rw [← hkey]
      exact searchLoop_found a t hsort ht (a.articleCount + 2) 0 (a.articleCount : Int)
        (by omega) (by omega) (by omega) (by omega) (by omega)
    have hmatch : (a.entryAt t).url = url ∧ (a.entryAt t).nspace = ns := by
      obtain ⟨h1, h2⟩ :=
        full_url_inj ((a.entryAt t).url) url (hnsdir t ht) hns hkey
      exact ⟨h2, h1⟩
    have hfirst : ∀ i, i < t →
        ¬((a.entryAt i).url = url ∧ (a.entryAt i).nspace = ns) := by
      intro i hi hmi
      have hui : entryFullUrl a i = full_url ns url := by
        show full_url (a.entryAt i).nspace (a.entryAt i).url = full_url ns url
        rw [hmi.1, hmi.2]
      have hlt := hsort t ht i hi
      rw [hui, hkey, lexLt_irrefl] at hlt
      exact absurd hlt (by simp)
    have hlin : get_entry_by_url a ns url true = some (a.entryAt t, t) := by
      show linearLoop a ns url a.articleCount 0 = _
      exact linearLoop_found a ns url t hmatch hfirst a.articleCount 0
        (by omega) (by omega)
    rw [hlin, hbin]
  · push_neg at hex
    have habsent : ∀ j, j < a.articleCount → entryFullUrl a j ≠ full_url ns url :=
      fun j hj => hex j hj
    have hbin : get_entry_by_url a ns url false = none := by
      show searchLoop a (full_url ns url) (a.articleCount + 2) 0 (a.articleCount : Int) = none
      exact searchLoop_miss a _ habsent hN hle (a.articleCount + 2) 0
        (a.articleCount : Int) (by omega) (by omega) (by omega)
    have habs : ∀ i, i < a.articleCount →
        ¬((a.entryAt i).url = url ∧ (a.entryAt i).nspace = ns) := by
      intro i hi hmi
      apply habsent i hi
      show full_url (a.entryAt i).nspace (a.entryAt i).url = full_url ns url
      rw [hmi.1, hmi.2]
    have hlin : get_entry_by_url a ns url true = none := by
      show linearLoop a ns url a.articleCount 0 = none
      exact linearLoop_miss a ns url habs a.articleCount 0 (by omega)
    rw [hlin, hbin]

/-- C2 witness: on the concrete sorted archive the amended equivalence holds
for a present key. -/
theorem get_entry_by_url_linear_eq_binary_witness :
    get_entry_by_url archSorted "A".data "a".data true =
      get_entry_by_url archSorted "A".data "a".data false :=
  get_entry_by_url_linear_eq_binary archSorted "A".data "a".data
    (by decide) (by decide) (by decide) (by decide) (by decide)

/-- C3 counterexample: searching `archJunk` (one directory entry) for the
key `A/b` probes the index sequence `[0, 1]`, and the final probe `1` equals
`articleCount`, outside `[0, articleCount)`: an out-of-range read. -/
theorem searchLoopProbes_out_of_range :
    searchLoopProbes archJunk (full_url "A".data "b".data)
      (archJunk.articleCount + 2) 0 (archJunk.articleCount : Int) = [0, 1] ∧
    archJunk.articleCount = 1 := by
  refine ⟨by decide, by decide⟩

/-- C3 (amended): every directory index probed by the binary search of
`_get_entry_by_url` lies in `[0, articleCount]` — the probe at
`articleCount` itself (one past the table, reachable when the key exceeds
every entry or the directory is empty) is possible, so the claimed exclusive
upper bound `articleCount` does not hold, but no probe ever exceeds it. -/
theorem searchLoopProbes_le_articleCount (a : ZIMArchive) (ns url : Str) (i : Nat)
    (hmem : i ∈ searchLoopProbes a (full_url ns url)
      (a.articleCount + 2) 0 (a.articleCount : Int)) :
    i ≤ a.articleCount :=
  searchLoopProbes_bounded a (full_url ns url) a.articleCount
    (a.articleCount + 2) 0 (a.articleCount : Int) i (by omega) (by omega) hmem

/-- C3 witness: probe 1 occurs while searching the sorted two-entry archive
for its present key `A/b`, and is indeed within bounds. -/
theorem searchLoopProbes_le_articleCount_witness :
    1 ∈ searchLoopProbes archSorted (full_url "A".data "b".data)
      (archSorted.articleCount + 2) 0 (archSorted.articleCount : Int) ∧
    1 ≤ archSorted.articleCount :=
  ⟨by decide, searchLoopProbes_le_articleCount archSorted "A".data "b".data 1 (by decide)⟩

/-- C5: the cluster reader performs no compression-type validation.  A
cluster declaring `compressionType = 2` (zlib — not among the supported
values 1 and 4) is constructed successfully with the `compressed` flag unset,
its body silently parsed as uncompressed data; the same holds for 3 and 5,
and no `UnsupportedCompression` error exists anywhere in the code. -/
theorem cluster_compression_not_validated :
    clusterInit 2 [8, 0, 0, 0, 10, 0, 0, 0, 7, 7] = some (false, [8, 10]) ∧
    clusterCompressed 2 = false ∧ clusterCompressed 3 = false ∧
    clusterCompressed 5 = false ∧ clusterCompressed 4 = true := by
  refine ⟨by decide, by decide, by decide, by decide, by decide⟩

/-! ### Cluster offset-table lemmas -/

/-- A successful `readU32s` returns exactly the requested number of values. -/
theorem readU32s_length (body : List Nat) :
    ∀ (n pos : Nat) (l : List Nat), readU32s body pos n = some l → l.length = n := by
  intro n
  induction n with
  | zero =>
    intro pos l h
    simp only [readU32s, Option.some.injEq] at h
    rw [← h]
    rfl
  | succ k ih =>
    intro pos l h
    simp only [readU32s] at h
    cases hv : readU32 body pos with
    | none => rw [hv] at h; simp at h
    | some v =>
      cases hr : readU32s body (pos + 4) k with
      | none => rw [hv, hr] at h; simp at h
      | some rest =>
        rw [hv, hr] at h
        simp only [Option.some.injEq] at h
        rw [← h, List.length_cons, ih (pos + 4) rest hr]

/-- C4: for a cluster body whose first u32 equals `4·(k+1)` and whose parsed
offsets are strictly increasing and within the body, the stored offset list
has `k+1` entries, so exactly `k` blobs are readable: `read_blob i` returns
precisely `offset[i+1] − offset[i]` bytes for each `i < k`, and every
`blobIndex ≥ len(offsets) − 1 = k` fails with the `IOError`. -/
theorem cluster_offsets_blob_spec (body : List Nat) (k : Nat) (ol : List Nat)
    (h0 : readU32 body 0 = some (4 * (k + 1)))
    (hread : read_offsets body = some ol)
    (hchain : ∀ i, i < ol.length - 1 → ol.getD i 0 < ol.getD (i + 1) 0)
    (hbound : ∀ x ∈ ol, x ≤ body.length) :
    ol.length = k + 1 ∧
    (∀ i, i < k → ∃ bytes, read_blob body ol i = .ok bytes ∧
      bytes.length = ol.getD (i + 1) 0 - ol.getD i 0) ∧
    (∀ j, k ≤ j → read_blob body ol j = .error blobRangeError) := by
  have hlen : ol.length = k + 1 := by
    simp only [read_offsets, h0] at hread
    have hdiv : 4 * (k + 1) / 4 - 1 = k := by omega
    rw [hdiv] at hread
    cases hr : readU32s body 4 k with
    | none => rw [hr] at hread; simp at hread
    | some rest =>
      rw [hr] at hread
      simp only [Option.some.injEq] at hread
      rw [← hread, List.length_cons, readU32s_length body k 4 rest hr]
  refine ⟨hlen, ?_, ?_⟩
  · intro i hi
    have h1 : i + 1 < ol.length := by omega
    have hstep : ol.getD i 0 < ol.getD (i + 1) 0 := hchain i (by omega)
    have hstop : ol.getD (i + 1) 0 ≤ body.length := by
      apply hbound
      rw [List.getD_eq_getElem ol 0 h1]
      exact List.getElem_mem h1
    refine ⟨(body.drop (ol.getD i 0)).take (ol.getD (i + 1) 0 - ol.getD i 0), ?_, ?_⟩
    · simp only [read_blob]
      rw [if_neg (by omega), if_pos (le_of_lt hstep)]
    · rw [List.length_take, List.length_drop]
      omega
  · intro j hj
    simp only [read_blob]
    rw [if_pos (by omega)]

/-- C4 witness: a concrete twelve-byte offset table (`12, 15, 20`) over a
twenty-byte body exposes two blobs of sizes 3 and 5 and rejects index 2. -/
theorem cluster_offsets_blob_spec_witness :
    ∃ ol, read_offsets [12, 0, 0, 0, 15, 0, 0, 0, 20, 0, 0, 0, 1, 2, 3, 4, 5, 6, 7, 8] =
        some ol ∧
      ol.length = 3 ∧
      (∀ i, i < 2 → ∃ bytes,
        read_blob [12, 0, 0, 0, 15, 0, 0, 0, 20, 0, 0, 0, 1, 2, 3, 4, 5, 6, 7, 8] ol i =
          .ok bytes ∧ bytes.length = ol.getD (i + 1) 0 - ol.getD i 0) ∧
      (∀ j, 2 ≤ j →
        read_blob [12, 0, 0, 0, 15, 0, 0, 0, 20, 0, 0, 0, 1, 2, 3, 4, 5, 6, 7, 8] ol j =
          .error blobRangeError) := by
  refine ⟨[12, 15, 20], by decide, ?_⟩
  have h := cluster_offsets_blob_spec
    [12, 0, 0, 0, 15, 0, 0, 0, 20, 0, 0, 0, 1, 2, 3, 4, 5, 6, 7, 8] 2 [12, 15, 20]
    (by decide) (by decide) (by decide) (by decide)
  exact ⟨h.1, h.2.1, h.2.2⟩

/-! ### Zero-terminated string decoding -/

/-- A valid Unicode scalar value round-trips through `Char.ofNat`. -/
theorem toNat_ofNat_valid (v : Nat) (h : Nat.isValidChar v) :
    (Char.ofNat v).toNat = v := by
  rw [Char.ofNat, dif_pos h]
  rfl

/-- A member of a list of lists is a subsequence of the joined list. -/
theorem sublist_join_of_mem {α : Type} :
    ∀ {L : List (List α)} {x : List α}, x ∈ L → List.Sublist x L.flatten := by
  intro L
  induction L with
  | nil => intro x hx; simp at hx
  | cons y L' ih =>
    intro x hx
    rw [List.flatten_cons]
    rcases List.mem_cons.mp hx with h | h
    · rw [h]
      exact List.sublist_append_left y L'.flatten
    · exact (ih h).trans (List.sublist_append_right y L'.flatten)

/-- Soundness of the ignoring decoder, for **arbitrary** byte streams:
re-encoding its output yields a subsequence of the input.  Every emitted
character comes from a run of input bytes, in order, and the bytes of
malformed sequences contribute nothing — they are dropped, with nothing
substituted in their place. -/
theorem utf8Aux_join_sublist :
    ∀ (fuel : Nat) (l : List Nat), l.length ≤ fuel →
      List.Sublist (((utf8DecodeIgnoreAux fuel l).map (fun c => utf8EncodeNat c.toNat)).flatten) (l) := by
  intro fuel
  induction fuel with
  | zero => intro l _; exact List.nil_sublist l
  | succ f ih =>
    intro l hl
    cases l with
    | nil => exact List.nil_sublist []
    | cons b rest =>
      have hrl : rest.length ≤ f := by
        simp only [List.length_cons] at hl
        omega
      simp only [utf8DecodeIgnoreAux]
      by_cases h1 : b < 0x80
      · rw [if_pos h1]
        have hv : (Char.ofNat b).toNat = b := toNat_ofNat_valid b (Or.inl (by omega))
        have henc : utf8EncodeNat b = [b] := by
          unfold utf8EncodeNat
          rw [if_pos h1]
        simp only [List.map_cons, List.flatten_cons, hv, henc]
        exact List.Sublist.cons₂ _ (ih rest hrl)
      · rw [if_neg h1]
        by_cases h2 : b < 0xC2
        · rw [if_pos h2]
          exact List.Sublist.cons _ (ih rest hrl)
        · rw [if_neg h2]
          by_cases h3 : b < 0xE0
          · rw [if_pos h3]
            cases rest with
            | nil => exact List.nil_sublist _
            | cons b1 rest' =>
              have hr1 : rest'.length ≤ f := by
                simp only [List.length_cons] at hrl
                omega
              dsimp only
              by_cases hc : 0x80 ≤ b1 ∧ b1 < 0xC0
              · rw [if_pos hc]
                obtain ⟨hc1, hc2⟩ := hc
                have hv : (Char.ofNat ((b - 0xC0) * 0x40 + (b1 - 0x80))).toNat =
                    (b - 0xC0) * 0x40 + (b1 - 0x80) :=
                  toNat_ofNat_valid _ (Or.inl (by omega))
                have henc : utf8EncodeNat ((b - 0xC0) * 0x40 + (b1 - 0x80)) = [b, b1] := by
                  unfold utf8EncodeNat
                  have hge : ¬ (b - 0xC0) * 0x40 + (b1 - 0x80) < 0x80 := by omega
                  have hlt : (b - 0xC0) * 0x40 + (b1 - 0x80) < 0x800 := by omega
                  rw [if_neg hge, if_pos hlt]
                  have e1 : ((b - 0xC0) * 0x40 + (b1 - 0x80)) / 0x40 = b - 0xC0 := by omega
                  have e2 : ((b - 0xC0) * 0x40 + (b1 - 0x80)) % 0x40 = b1 - 0x80 := by omega
                  rw [e1, e2]
                  have e3 : 0xC0 + (b - 0xC0) = b := by omega
                  have e4 : 0x80 + (b1 - 0x80) = b1 := by omega
                  rw [e3, e4]
                simp only [List.map_cons, List.flatten_cons, hv, henc]
                exact List.Sublist.cons₂ _ (List.Sublist.cons₂ _ (ih rest' hr1))
              · rw [if_neg hc]
                exact List.Sublist.cons _ (ih (b1 :: rest') hrl)
          · rw [if_neg h3]
            by_cases h4 : b < 0xF0
            · rw [if_pos h4]
              cases rest with
              | nil => exact List.Sublist.cons _ (ih [] (by simp))
              | cons b1 rtail =>
                cases rtail with
                | nil => exact List.Sublist.cons _ (ih [b1] hrl)
                | cons b2 rest' =>
                  have hr2 : rest'.length ≤ f := by
                    simp only [List.length_cons] at hrl
                    omega
                  dsimp only
                  by_cases hc : (utf8Lo2 b ≤ b1 ∧ b1 ≤ utf8Hi2 b) ∧
                      (0x80 ≤ b2 ∧ b2 < 0xC0)
                  · rw [if_pos hc]
                    obtain ⟨⟨hc1, hc2⟩, hc3, hc4⟩ := hc
                    have hc1' : (if b = 0xE0 then 0xA0 else 0x80) ≤ b1 := hc1
                    have hc2' : b1 ≤ (if b = 0xED then 0x9F else 0xBF) := hc2
                    have hb1r : 0x80 ≤ b1 ∧ b1 ≤ 0xBF := by
                      constructor
                      · by_cases hb0 : b = 0xE0
                        · rw [if_pos hb0] at hc1'; omega
                        · rw [if_neg hb0] at hc1'; omega
                      · by_cases hbd : b = 0xED
                        · rw [if_pos hbd] at hc2'; omega
                        · rw [if_neg hbd] at hc2'; omega
                    have key : 0x800 ≤ (b - 0xE0) * 0x1000 + (b1 - 0x80) * 0x40 + (b2 - 0x80) ∧
                        (b - 0xE0) * 0x1000 + (b1 - 0x80) * 0x40 + (b2 - 0x80) < 0x10000 ∧
                        ((b - 0xE0) * 0x1000 + (b1 - 0x80) * 0x40 + (b2 - 0x80) < 0xD800 ∨
                          (0xDFFF < (b - 0xE0) * 0x1000 + (b1 - 0x80) * 0x40 + (b2 - 0x80) ∧
                            (b - 0xE0) * 0x1000 + (b1 - 0x80) * 0x40 + (b2 - 0x80) < 0x110000)) := by
                      by_cases hb0 : b = 0xE0
                      · rw [if_pos hb0] at hc1'
                        omega
                      · rw [if_neg hb0] at hc1'
                        by_cases hbd : b = 0xED
                        · rw [if_pos hbd] at hc2'
                          omega
                        · rw [if_neg hbd] at hc2'
                          omega
                    have hval : Nat.isValidChar
                        ((b - 0xE0) * 0x1000 + (b1 - 0x80) * 0x40 + (b2 - 0x80)) := key.2.2
                    have hv := toNat_ofNat_valid _ hval
                    have henc : utf8EncodeNat
                        ((b - 0xE0) * 0x1000 + (b1 - 0x80) * 0x40 + (b2 - 0x80)) =
                        [b, b1, b2] := by
                      unfold utf8EncodeNat
                      have hge : ¬ (b - 0xE0) * 0x1000 + (b1 - 0x80) * 0x40 + (b2 - 0x80)
                          < 0x80 := by omega
                      have hge2 : ¬ (b - 0xE0) * 0x1000 + (b1 - 0x80) * 0x40 + (b2 - 0x80)
                          < 0x800 := by omega
                      rw [if_neg hge, if_neg hge2, if_pos key.2.1]
                      have e1 : ((b - 0xE0) * 0x1000 + (b1 - 0x80) * 0x40 + (b2 - 0x80))
                          / 0x1000 = b - 0xE0 := by omega
                      have e0 : ((b - 0xE0) * 0x1000 + (b1 - 0x80) * 0x40 + (b2 - 0x80))
                          / 0x40 = (b - 0xE0) * 0x40 + (b1 - 0x80) := by omega
                      have e2 : ((b - 0xE0) * 0x1000 + (b1 - 0x80) * 0x40 + (b2 - 0x80))
                          / 0x40 % 0x40 = b1 - 0x80 := by
                        rw [e0]
                        omega
                      have e3 : ((b - 0xE0) * 0x1000 + (b1 - 0x80) * 0x40 + (b2 - 0x80))
                          % 0x40 = b2 - 0x80 := by omega
                      rw [e1, e2, e3]
                      have e4 : 0xE0 + (b - 0xE0) = b := by omega
                      have e5 : 0x80 + (b1 - 0x80) = b1 := by omega
                      have e6 : 0x80 + (b2 - 0x80) = b2 := by omega
                      rw [e4, e5, e6]
                    simp only [List.map_cons, List.flatten_cons, hv, henc]
                    exact List.Sublist.cons₂ _ (List.Sublist.cons₂ _
                      (List.Sublist.cons₂ _ (ih rest' hr2)))
                  · rw [if_neg hc]
                    exact List.Sublist.cons _ (ih (b1 :: b2 :: rest') hrl)
            · rw [if_neg h4]
              by_cases h5 : b < 0xF5
              · rw [if_pos h5]
                cases rest with
                | nil => exact List.Sublist.cons _ (ih [] (by simp))
                | cons b1 rtail =>
                  cases rtail with
                  | nil => exact List.Sublist.cons _ (ih [b1] hrl)
                  | cons b2 rtail2 =>
                    cases rtail2 with
                    | nil => exact List.Sublist.cons _ (ih [b1, b2] hrl)
                    | cons b3 rest' =>
                      have hr3 : rest'.length ≤ f := by
                        simp only [List.length_cons] at hrl
                        omega
                      dsimp only
                      by_cases hc : (utf8Lo3 b ≤ b1 ∧ b1 ≤ utf8Hi3 b) ∧
                          (0x80 ≤ b2 ∧ b2 < 0xC0) ∧ (0x80 ≤ b3 ∧ b3 < 0xC0)
                      · rw [if_pos hc]
                        obtain ⟨⟨hc1, hc2⟩, ⟨hc3, hc4⟩, hc5, hc6⟩ := hc
                        have hc1' : (if b = 0xF0 then 0x90 else 0x80) ≤ b1 := hc1
                        have hc2' : b1 ≤ (if b = 0xF4 then 0x8F else 0xBF) := hc2
                        have hb1r : 0x80 ≤ b1 ∧ b1 ≤ 0xBF := by
                          constructor
                          · by_cases hb0 : b = 0xF0
                            · rw [if_pos hb0] at hc1'; omega
                            · rw [if_neg hb0] at hc1'; omega
                          · by_cases hb4 : b = 0xF4
                            · rw [if_pos hb4] at hc2'; omega
                            · rw [if_neg hb4] at hc2'; omega
                        have key : 0x10000 ≤ (b - 0xF0) * 0x40000 + (b1 - 0x80) * 0x1000 +
                              (b2 - 0x80) * 0x40 + (b3 - 0x80) ∧
                            (b - 0xF0) * 0x40000 + (b1 - 0x80) * 0x1000 +
                              (b2 - 0x80) * 0x40 + (b3 - 0x80) < 0x110000 := by
                          by_cases hb0 : b = 0xF0
                          · rw [if_pos hb0] at hc1'
                            omega
                          · rw [if_neg hb0] at hc1'
                            by_cases hb4 : b = 0xF4
                            · rw [if_pos hb4] at hc2'
                              omega
                            · rw [if_neg hb4] at hc2'
                              omega
                        have hval : Nat.isValidChar ((b - 0xF0) * 0x40000 +
                            (b1 - 0x80) * 0x1000 + (b2 - 0x80) * 0x40 + (b3 - 0x80)) :=
                          Or.inr (by omega)
                        have hv := toNat_ofNat_valid _ hval
                        have henc : utf8EncodeNat ((b - 0xF0) * 0x40000 +
                            (b1 - 0x80) * 0x1000 + (b2 - 0x80) * 0x40 + (b3 - 0x80)) =
                            [b, b1, b2, b3] := by
                          unfold utf8EncodeNat
                          have hge : ¬ (b - 0xF0) * 0x40000 + (b1 - 0x80) * 0x1000 +
                              (b2 - 0x80) * 0x40 + (b3 - 0x80) < 0x80 := by omega
                          have hge2 : ¬ (b - 0xF0) * 0x40000 + (b1 - 0x80) * 0x1000 +
                              (b2 - 0x80) * 0x40 + (b3 - 0x80) < 0x800 := by omega
                          have hge3 : ¬ (b - 0xF0) * 0x40000 + (b1 - 0x80) * 0x1000 +
                              (b2 - 0x80) * 0x40 + (b3 - 0x80) < 0x10000 := by omega
                          rw [if_neg hge, if_neg hge2, if_neg hge3]
                          have e1 : ((b - 0xF0) * 0x40000 + (b1 - 0x80) * 0x1000 +
                              (b2 - 0x80) * 0x40 + (b3 - 0x80)) / 0x40000 = b - 0xF0 := by
                            omega
                          have e0 : ((b - 0xF0) * 0x40000 + (b1 - 0x80) * 0x1000 +
                              (b2 - 0x80) * 0x40 + (b3 - 0x80)) / 0x1000 =
                              (b - 0xF0) * 0x40 + (b1 - 0x80) := by omega
                          have e2 : ((b - 0xF0) * 0x40000 + (b1 - 0x80) * 0x1000 +
                              (b2 - 0x80) * 0x40 + (b3 - 0x80)) / 0x1000 % 0x40 =
                              b1 - 0x80 := by
                            rw [e0]
                            omega
                          have e0' : ((b - 0xF0) * 0x40000 + (b1 - 0x80) * 0x1000 +
                              (b2 - 0x80) * 0x40 + (b3 - 0x80)) / 0x40 =
                              (b - 0xF0) * 0x1000 + (b1 - 0x80) * 0x40 + (b2 - 0x80) := by
                            omega
                          have e3 : ((b - 0xF0) * 0x40000 + (b1 - 0x80) * 0x1000 +
                              (b2 - 0x80) * 0x40 + (b3 - 0x80)) / 0x40 % 0x40 =
                              b2 - 0x80 := by
                            rw [e0']
                            omega
                          have e4 : ((b - 0xF0) * 0x40000 + (b1 - 0x80) * 0x1000 +
                              (b2 - 0x80) * 0x40 + (b3 - 0x80)) % 0x40 = b3 - 0x80 := by
                            omega
                          rw [e1, e2, e3, e4]
                          have e5 : 0xF0 + (b - 0xF0) = b := by omega
                          have e6 : 0x80 + (b1 - 0x80) = b1 := by omega
                          have e7 : 0x80 + (b2 - 0x80) = b2 := by omega
                          have e8 : 0x80 + (b3 - 0x80) = b3 := by omega
                          rw [e5, e6, e7, e8]
                        simp only [List.map_cons, List.flatten_cons, hv, henc]
                        exact List.Sublist.cons₂ _ (List.Sublist.cons₂ _
                          (List.Sublist.cons₂ _ (List.Sublist.cons₂ _ (ih rest' hr3))))
                      · rw [if_neg hc]
                        exact List.Sublist.cons _ (ih (b1 :: b2 :: b3 :: rest') hrl)
              · rw [if_neg h5]
                exact List.Sublist.cons _ (ih rest hrl)

/-- Completeness of the ignoring decoder: a stream that is entirely
well-formed UTF-8 — the concatenated encodings of any character sequence —
decodes to exactly that sequence.  Only malformed bytes are ever dropped. -/
theorem utf8Aux_decode_encode :
    ∀ (cs : List Char) (fuel : Nat),
      ((cs.map (fun c => utf8EncodeNat c.toNat)).flatten).length ≤ fuel →
      utf8DecodeIgnoreAux fuel ((cs.map (fun c => utf8EncodeNat c.toNat)).flatten) = cs := by
  intro cs
  induction cs with
  | nil => intro fuel _; cases fuel <;> rfl
  | cons c cs' ih =>
    intro fuel hf
    have hval : Nat.isValidChar c.toNat := c.valid
    simp only [List.map_cons, List.flatten_cons] at hf ⊢
    by_cases h1 : c.toNat < 0x80
    · have henc : utf8EncodeNat c.toNat = [c.toNat] := by
        unfold utf8EncodeNat
        rw [if_pos h1]
      rw [henc] at hf ⊢
      rw [List.singleton_append] at hf ⊢
      cases fuel with
      | zero => simp only [List.length_cons] at hf; omega
      | succ f =>
        have hJ : ((cs'.map (fun c => utf8EncodeNat c.toNat)).flatten).length ≤ f := by
          simp only [List.length_cons] at hf
          omega
        simp only [utf8DecodeIgnoreAux]
        rw [if_pos h1, Char.ofNat_toNat, ih f hJ]
    · by_cases h2 : c.toNat < 0x800
      · have henc : utf8EncodeNat c.toNat =
            [0xC0 + c.toNat / 0x40, 0x80 + c.toNat % 0x40] := by
          unfold utf8EncodeNat
          rw [if_neg h1, if_pos h2]
        rw [henc] at hf ⊢
        simp only [List.cons_append, List.nil_append] at hf ⊢
        cases fuel with
        | zero => simp only [List.length_cons] at hf; omega
        | succ f =>
          have hJ : ((cs'.map (fun c => utf8EncodeNat c.toNat)).flatten).length ≤ f := by
            simp only [List.length_cons] at hf
            omega
          simp only [utf8DecodeIgnoreAux]
          have k1 : ¬ 0xC0 + c.toNat / 0x40 < 0x80 := by omega
          have k2 : ¬ 0xC0 + c.toNat / 0x40 < 0xC2 := by omega
          have k3 : 0xC0 + c.toNat / 0x40 < 0xE0 := by omega
          rw [if_neg k1, if_neg k2, if_pos k3]
          have k4 : 0x80 ≤ 0x80 + c.toNat % 0x40 ∧ 0x80 + c.toNat % 0x40 < 0xC0 := by
            omega
          rw [if_pos k4]
          have k5 : (0xC0 + c.toNat / 0x40 - 0xC0) * 0x40 +
              (0x80 + c.toNat % 0x40 - 0x80) = c.toNat := by omega
          rw [k5, Char.ofNat_toNat, ih f hJ]
      · by_cases h3 : c.toNat < 0x10000
        · have henc : utf8EncodeNat c.toNat =
              [0xE0 + c.toNat / 0x1000, 0x80 + c.toNat / 0x40 % 0x40,
                0x80 + c.toNat % 0x40] := by
            unfold utf8EncodeNat
            rw [if_neg h1, if_neg h2, if_pos h3]
          rw [henc] at hf ⊢
          simp only [List.cons_append, List.nil_append] at hf ⊢
          cases fuel with
          | zero => simp only [List.length_cons] at hf; omega
          | succ f =>
            have hJ : ((cs'.map (fun c => utf8EncodeNat c.toNat)).flatten).length ≤ f := by
              simp only [List.length_cons] at hf
              omega
            simp only [utf8DecodeIgnoreAux]
            have k1 : ¬ 0xE0 + c.toNat / 0x1000 < 0x80 := by omega
            have k2 : ¬ 0xE0 + c.toNat / 0x1000 < 0xC2 := by omega
            have k3 : ¬ 0xE0 + c.toNat / 0x1000 < 0xE0 := by omega
            have k4 : 0xE0 + c.toNat / 0x1000 < 0xF0 := by omega
            rw [if_neg k1, if_neg k2, if_neg k3, if_pos k4]
            have hcnd : (utf8Lo2 (0xE0 + c.toNat / 0x1000) ≤ 0x80 + c.toNat / 0x40 % 0x40 ∧
                0x80 + c.toNat / 0x40 % 0x40 ≤ utf8Hi2 (0xE0 + c.toNat / 0x1000)) ∧
                (0x80 ≤ 0x80 + c.toNat % 0x40 ∧ 0x80 + c.toNat % 0x40 < 0xC0) := by
              refine ⟨⟨?_, ?_⟩, by omega⟩
              · unfold utf8Lo2
                by_cases hq : 0xE0 + c.toNat / 0x1000 = 0xE0
                · rw [if_pos hq]
                  omega
                · rw [if_neg hq]
                  omega
              · unfold utf8Hi2
                by_cases hq : 0xE0 + c.toNat / 0x1000 = 0xED
                · rw [if_pos hq]
                  rcases hval with hlt | ⟨hgt, _⟩
                  · omega
                  · omega
                · rw [if_neg hq]
                  omega
            rw [if_pos hcnd]
            have k5 : (0xE0 + c.toNat / 0x1000 - 0xE0) * 0x1000 +
                (0x80 + c.toNat / 0x40 % 0x40 - 0x80) * 0x40 +
                (0x80 + c.toNat % 0x40 - 0x80) = c.toNat := by omega
            rw [k5, Char.ofNat_toNat, ih f hJ]
        · have hub : c.toNat < 0x110000 := by
            rcases hval with hlt | ⟨_, hlt2⟩
            · omega
            · exact hlt2
          have henc : utf8EncodeNat c.toNat =
              [0xF0 + c.toNat / 0x40000, 0x80 + c.toNat / 0x1000 % 0x40,
                0x80 + c.toNat / 0x40 % 0x40, 0x80 + c.toNat % 0x40] := by
            unfold utf8EncodeNat
            rw [if_neg h1, if_neg h2, if_neg h3]
          rw [henc] at hf ⊢
          simp only [List.cons_append, List.nil_append] at hf ⊢
          cases fuel with
          | zero => simp only [List.length_cons] at hf; omega
          | succ f =>
            have hJ : ((cs'.map (fun c => utf8EncodeNat c.toNat)).flatten).length ≤ f := by
              simp only [List.length_cons] at hf
              omega
            simp only [utf8DecodeIgnoreAux]
            have k1 : ¬ 0xF0 + c.toNat / 0x40000 < 0x80 := by omega
            have k2 : ¬ 0xF0 + c.toNat / 0x40000 < 0xC2 := by omega
            have k3 : ¬ 0xF0 + c.toNat / 0x40000 < 0xE0 := by omega
            have k4 : ¬ 0xF0 + c.toNat / 0x40000 < 0xF0 := by omega
            have k5 : 0xF0 + c.toNat / 0x40000 < 0xF5 := by omega
            rw [if_neg k1, if_neg k2, if_neg k3, if_neg k4, if_pos k5]
            have hcnd : (utf8Lo3 (0xF0 + c.toNat / 0x40000) ≤
                  0x80 + c.toNat / 0x1000 % 0x40 ∧
                0x80 + c.toNat / 0x1000 % 0x40 ≤ utf8Hi3 (0xF0 + c.toNat / 0x40000)) ∧
                (0x80 ≤ 0x80 + c.toNat / 0x40 % 0x40 ∧
                  0x80 + c.toNat / 0x40 % 0x40 < 0xC0) ∧
                (0x80 ≤ 0x80 + c.toNat % 0x40 ∧ 0x80 + c.toNat % 0x40 < 0xC0) := by
              refine ⟨⟨?_, ?_⟩, by omega, by omega⟩
              · unfold utf8Lo3
                by_cases hq : 0xF0 + c.toNat / 0x40000 = 0xF0
                · rw [if_pos hq]
                  omega
                · rw [if_neg hq]
                  omega
              · unfold utf8Hi3
                by_cases hq : 0xF0 + c.toNat / 0x40000 = 0xF4
                · rw [if_pos hq]
                  omega
                · rw [if_neg hq]
                  omega
            rw [if_pos hcnd]
            have k6 : (0xF0 + c.toNat / 0x40000 - 0xF0) * 0x40000 +
                (0x80 + c.toNat / 0x1000 % 0x40 - 0x80) * 0x1000 +
                (0x80 + c.toNat / 0x40 % 0x40 - 0x80) * 0x40 +
                (0x80 + c.toNat % 0x40 - 0x80) = c.toNat := by omega
            rw [k6, Char.ofNat_toNat, ih f hJ]

/-- C8 counterexample: decoding the zero-terminated field
`61 FF 62 00 63` (with the malformed byte `FF`) yields `"ab"` — the
malformed byte is silently dropped (`errors="ignore"`), and the result
contains no U+FFFD replacement character, contrary to the claim that
malformed sequences are substituted by a replacement marker. -/
theorem read_zero_terminated_no_replacement :
    read_zero_terminated [0x61, 0xFF, 0x62, 0x00, 0x63] = "ab".data ∧
    Char.ofNat 0xFFFD ∉ read_zero_terminated [0x61, 0xFF, 0x62, 0x00, 0x63] := by
  refine ⟨by decide, by decide⟩

/-- C8 (amended), for **every** zero-terminated field: the bytes up to the
`0x00` terminator are decoded with malformed byte sequences **dropped**
(Python's `errors="ignore"`), not replaced, and decoding never raises.
Concretely: (1) re-encoding the decoded result yields a subsequence of the
pre-terminator bytes, so every emitted character comes from input bytes in
order and the bytes of malformed sequences — stray continuations, bad leads,
truncated, overlong or surrogate sequences — are omitted with nothing
substituted for them; (2) a U+FFFD replacement character can appear in the
output only if the input itself contains its encoding; (3) a fully
well-formed field decodes to exactly its characters, so only malformed bytes
are ever dropped. -/
theorem read_zero_terminated_drops_malformed (stream : List Nat) :
    List.Sublist ((read_zero_terminated stream).map
        (fun c => utf8EncodeNat c.toNat)).flatten
      (stream.takeWhile (fun b => b != 0)) ∧
    (Char.ofNat 0xFFFD ∈ read_zero_terminated stream →
      List.Sublist ([0xEF, 0xBF, 0xBD]) (stream.takeWhile (fun b => b != 0))) ∧
    (∀ cs : List Char,
      utf8DecodeIgnore ((cs.map (fun c => utf8EncodeNat c.toNat)).flatten) = cs) := by
  have hsub : List.Sublist ((read_zero_terminated stream).map
        (fun c => utf8EncodeNat c.toNat)).flatten
      (stream.takeWhile (fun b => b != 0)) := by
    unfold read_zero_terminated utf8DecodeIgnore
    exact utf8Aux_join_sublist _ _ (le_refl _)
  refine ⟨hsub, ?_, ?_⟩
  · intro hmem
    have h1 : utf8EncodeNat ((Char.ofNat 0xFFFD).toNat) ∈
        (read_zero_terminated stream).map (fun c => utf8EncodeNat c.toNat) :=
      List.mem_map_of_mem _ hmem
    have h2 : utf8EncodeNat ((Char.ofNat 0xFFFD).toNat) = [0xEF, 0xBF, 0xBD] := by
      decide
    rw [h2] at h1
    exact (sublist_join_of_mem h1).trans hsub
  · intro cs
    unfold utf8DecodeIgnore
    exact utf8Aux_decode_encode cs _ (le_refl _)

/-- C8 witness: the amended statement exercised concretely — soundness on a
stream mixing valid multi-byte UTF-8 (`C3 A9` = `é`) with a malformed byte,
and the replacement-marker clause on a stream that does encode U+FFFD. -/
theorem read_zero_terminated_drops_malformed_witness :
    List.Sublist ((read_zero_terminated [0xC3, 0xA9, 0xFF, 0x62, 0x00, 0x64]).map
        (fun c => utf8EncodeNat c.toNat)).flatten
      (([0xC3, 0xA9, 0xFF, 0x62, 0x00, 0x64] : List Nat).takeWhile (fun b => b != 0)) ∧
    List.Sublist [0xEF, 0xBF, 0xBD]
      (([0xEF, 0xBF, 0xBD, 0x00] : List Nat).takeWhile (fun b => b != 0)) :=
  ⟨(read_zero_terminated_drops_malformed [0xC3, 0xA9, 0xFF, 0x62, 0x00, 0x64]).1,
    (read_zero_terminated_drops_malformed [0xEF, 0xBF, 0xBD, 0x00]).2.1 (by decide)⟩


/-! ### Metadata enumeration -/

/-- Processing indices `n-1 … 0` backwards: when the `r` highest of them form
a namespace-`M` run whose articles resolve to `arts 0 … arts (r-1)` (ordered
from index `n-1` downwards) and the run stops below (`r = n`, or a non-`M`
entry at `n-1-r`), `metadataAux` returns exactly that run, each entry mapped
to its lowercased url and its article's bytes. -/
theorem metadataAux_run (a : ZIMArchive) (fuel : Nat) :
    ∀ (r n : Nat) (arts : Nat → Article),
      r ≤ n →
      (∀ j, j < r → (a.entryAt (n - 1 - j)).nspace = "M".data) →
      (∀ j, j < r → get_article_by_index a fuel (n - 1 - j) true = .ok (arts j)) →
      (r = n ∨ (a.entryAt (n - 1 - r)).nspace ≠ "M".data) →
      metadataAux a fuel n = .ok ((List.range r).map fun j =>
        (pyLower (a.entryAt (n - 1 - j)).url, (arts j).data)) := by
  intro r
  induction r with
  | zero =>
    intro n arts _ _ _ hstop
    rcases hstop with h | h
    · rw [← h]
      rfl
    · cases n with
      | zero => rfl
      | succ m =>
        simp only [metadataAux, read_directory_entry_by_index]
        rw [if_neg (by simpa using h)]
        rfl
  | succ rr ih =>
    intro n arts hr hM harts hstop
    match n, hr with
    | m + 1, hr =>
      have hM0 : (a.entryAt m).nspace = "M".data := by
        have h := hM 0 (by omega)
        simpa using h
      have ha0 : get_article_by_index a fuel m true = .ok (arts 0) := by
        have h := harts 0 (by omega)
        simpa using h
      have hrec := ih m (fun j => arts (j + 1)) (by omega)
        (fun j hj => by
          have h := hM (j + 1) (by omega)
          rwa [show m + 1 - 1 - (j + 1) = m - 1 - j by omega] at h)
        (fun j hj => by
          have h := harts (j + 1) (by omega)
          rwa [show m + 1 - 1 - (j + 1) = m - 1 - j by omega] at h)
        (by
          rcases hstop with h | h
          · left; omega
          · right
            rwa [show m + 1 - 1 - (rr + 1) = m - 1 - rr by omega] at h)
      simp only [metadataAux, read_directory_entry_by_index]
      rw [if_pos hM0, ha0]
      show (match metadataAux a fuel m with
        | Except.error e => Except.error e
        | Except.ok rest =>
          Except.ok ((pyLower (a.entryAt m).url, (arts 0).data) :: rest)) = _
      rw [hrec]
      show Except.ok ((pyLower (a.entryAt m).url, (arts 0).data) ::
        List.map (fun j => (pyLower (a.entryAt (m - 1 - j)).url, (arts (j + 1)).data))
          (List.range rr)) = _
      congr 1
      rw [List.range_succ_eq_map, List.map_cons, List.map_map]
      refine congrArg₂ List.cons ?_ ?_
      · simp
      · apply List.map_congr_left
        intro x _
        simp only [Function.comp_apply, Nat.succ_eq_add_one, Nat.add_sub_cancel]
        have hxx : m - 1 - x = m - (x + 1) := by omega
        rw [hxx]

/-- C7: `metadata()` iterates backwards from `articleCount - 1`, collects
exactly the contiguous tail run of namespace-`M` entries (stopping at the
first entry outside `M`), and maps each collected entry's lowercased url to
that entry's article bytes. -/
theorem metadata_tail_run (a : ZIMArchive) (fuel runLen : Nat) (arts : Nat → Article)
    (hrun : runLen ≤ a.articleCount)
    (hM : ∀ j, j < runLen → (a.entryAt (a.articleCount - 1 - j)).nspace = "M".data)
    (harts : ∀ j, j < runLen →
      get_article_by_index a fuel (a.articleCount - 1 - j) true = .ok (arts j))
    (hstop : runLen = a.articleCount ∨
      (a.entryAt (a.articleCount - 1 - runLen)).nspace ≠ "M".data) :
    metadata a fuel = .ok ((List.range runLen).map fun j =>
      (pyLower (a.entryAt (a.articleCount - 1 - j)).url, (arts j).data)) :=
  metadataAux_run a fuel runLen a.articleCount arts hrun hM harts hstop

/-! ### Substring search and dict lemmas for BM25 -/

/-- `leadsWith t s` means `s` extends `t`. -/
theorem leadsWith_iff : ∀ (t s : Str), leadsWith t s = true ↔ ∃ r, s = t ++ r := by
  intro t
  induction t with
  | nil =>
    intro s
    simp [leadsWith]
  | cons a as ih =>
    intro s
    cases s with
    | nil =>
      simp [leadsWith]
    | cons b bs =>
      simp only [leadsWith, Bool.and_eq_true, beq_iff_eq, ih bs]
      constructor
      · rintro ⟨hab, r, hr⟩
        exact ⟨r, by rw [hab, hr]; rfl⟩
      · rintro ⟨r, hr⟩
        simp only [List.cons_append, List.cons.injEq] at hr
        exact ⟨hr.1.symm, r, hr.2⟩

/-- The boolean scan decides the substring decomposition predicate. -/
theorem containsSub_iff : ∀ (t d : Str), containsSub t d = true ↔ SubstrOf t d := by
  intro t d
  induction d with
  | nil =>
    simp only [containsSub, leadsWith_iff, SubstrOf]
    constructor
    · rintro ⟨r, hr⟩
      have ht : t = [] := by
        cases t with
        | nil => rfl
        | cons x xs => exact absurd hr (by simp)
      exact ⟨[], [], by simp [ht]⟩
    · rintro ⟨pre, post, hp⟩
      have : pre = [] ∧ t ++ post = [] := by
        constructor
        · cases pre with
          | nil => rfl
          | cons x xs => exact absurd hp (by simp)
        · cases pre with
          | nil => simpa using hp.symm
          | cons x xs => exact absurd hp (by simp)
      have ht : t = [] := by
        cases t with
        | nil => rfl
        | cons x xs => exact absurd this.2 (by simp)
      exact ⟨[], by simp [ht]⟩
  | cons c d' ih =>
    simp only [containsSub, Bool.or_eq_true, leadsWith_iff, ih]
    constructor
    · rintro (⟨r, hr⟩ | ⟨pre, post, hp⟩)
      · exact ⟨[], r, by simpa using hr⟩
      · exact ⟨c :: pre, post, by simp [hp]⟩
    · rintro ⟨pre, post, hp⟩
      cases pre with
      | nil =>
        left
        exact ⟨post, by simpa using hp⟩
      | cons p ps =>
        right
        simp only [List.cons_append, List.cons.injEq] at hp
        exact ⟨ps, post, hp.2⟩

/-- `str.find`'s sign decides the same predicate as the boolean scan,
independently of the running index. -/
theorem strFindAux_pos_iff : ∀ (s t : Str) (i : Nat),
    (strFindAux t s i > -1) ↔ containsSub t s = true := by
  intro s
  induction s with
  | nil =>
    intro t i
    simp only [strFindAux, containsSub]
    by_cases hl : leadsWith t [] = true
    · rw [if_pos hl, hl]
      constructor
      · intro _; rfl
      · intro _
        exact lt_of_lt_of_le (by norm_num) (Int.ofNat_nonneg i)
    · rw [if_neg hl]
      simp only [gt_iff_lt, lt_self_iff_false, false_iff]
      intro hc
      exact hl hc
  | cons c s' ih =>
    intro t i
    simp only [strFindAux, containsSub]
    by_cases hl : leadsWith t (c :: s') = true
    · rw [if_pos hl, hl]
      constructor
      · intro _; rfl
      · intro _
        exact lt_of_lt_of_le (by norm_num) (Int.ofNat_nonneg i)
    · rw [if_neg hl]
      rw [ih t (i + 1)]
      cases hcs : containsSub t s' <;>
        simp [hcs, show leadsWith t (c :: s') = false from by simpa using hl]

/-- Python's `document.find(term) > -1` holds exactly when `term` occurs as a
contiguous substring of `document`. -/
theorem strFind_pos_iff (d t : Str) : (strFind d t > -1) ↔ SubstrOf t d :=
  (strFindAux_pos_iff d t 0).trans (containsSub_iff t d)

/-- The source's running tally of `document.find(term) > -1` over the corpus
counts exactly the documents on which the boolean substring scan succeeds. -/
theorem tally_eq_countP (t : Str) : ∀ (l : List Str) (init : Nat),
    l.foldl (fun frequency document =>
      frequency + if strFind document t > -1 then 1 else 0) init =
    init + l.countP (fun d => containsSub t d) := by
  intro l
  induction l with
  | nil => intro init; simp
  | cons d ds ih =>
    intro init
    rw [List.foldl_cons, ih, List.countP_cons]
    have : (if strFind d t > -1 then 1 else 0) =
        (if containsSub t d = true then 1 else 0) := by
      by_cases hs : containsSub t d = true
      · rw [if_pos hs,
          if_pos (show strFind d t > -1 from (strFindAux_pos_iff d t 0).mpr hs)]
      · rw [if_neg hs, if_neg (show ¬ strFind d t > -1 from
          fun hc => hs ((strFindAux_pos_iff d t 0).mp hc))]
    omega

/-- Counting a single-character pattern is counting that character. -/
theorem countOcc_single (c : Char) : ∀ (s : Str) (fuel : Nat), s.length ≤ fuel →
    countOccAux [c] fuel s = s.count c := by
  intro s
  induction s with
  | nil => intro fuel _; cases fuel <;> simp [countOccAux]
  | cons b s' ih =>
    intro fuel hf
    match fuel, hf with
    | f + 1, hf =>
      have hf' : s'.length ≤ f := by
        simp only [List.length_cons] at hf
        omega
      simp only [countOccAux, leadsWith, Bool.and_eq_true, beq_iff_eq]
      by_cases hcb : c = b
      · rw [if_pos ⟨hcb, trivial⟩]
        simp only [List.length_cons, List.length_nil, Nat.sub_self, List.drop_zero]
        rw [ih f hf']
        subst hcb
        rw [List.count_cons_self]
        omega
      · rw [if_neg (fun hh => hcb hh.1)]
        rw [ih f hf']
        rw [List.count_cons_of_ne hcb]

/-- `doc.count(" ") = ` the number of space characters in `doc`. -/
theorem strCount_space (d : Str) : strCount d " ".data = d.count ' ' := by
  unfold strCount
  rw [if_neg (by simp)]
  exact countOcc_single ' ' d d.length (le_refl _)

/-- `dictInsert` preserves "every value is determined by its key via `f`". -/
theorem dictInsert_prop (f : Str → Nat) (l : List (Str × Nat)) (k : Str)
    (hl : ∀ p ∈ l, p.2 = f p.1) :
    ∀ p ∈ dictInsert l k (f k), p.2 = f p.1 := by
  intro p hp
  unfold dictInsert at hp
  split at hp
  · obtain ⟨q, hq, hqe⟩ := List.mem_map.mp hp
    by_cases hqk : q.1 == k
    · rw [if_pos hqk] at hqe
      rw [← hqe]
    · rw [if_neg hqk] at hqe
      exact hqe ▸ hl q hq
  · rcases List.mem_append.mp hp with hmem | hmem
    · exact hl p hmem
    · have : p = (k, f k) := by simpa using hmem
      rw [this]

/-- After inserting key `k`, `k` is among the dict's keys. -/
theorem dictInsert_mem_keys (l : List (Str × Nat)) (k : Str) (v : Nat) :
    k ∈ (dictInsert l k v).map Prod.fst := by
  unfold dictInsert
  split
  next hany =>
    obtain ⟨q, hq, hqk⟩ := List.any_eq_true.mp hany
    apply List.mem_map.mpr
    refine ⟨(k, v), ?_, rfl⟩
    apply List.mem_map.mpr
    exact ⟨q, hq, by rw [if_pos hqk]⟩
  next _ => simp

/-- Insertion never removes keys. -/
theorem dictInsert_keys_mono (l : List (Str × Nat)) (k : Str) (v : Nat) (x : Str)
    (hx : x ∈ l.map Prod.fst) : x ∈ (dictInsert l k v).map Prod.fst := by
  unfold dictInsert
  obtain ⟨q, hq, hqe⟩ := List.mem_map.mp hx
  split
  · apply List.mem_map.mpr
    by_cases hqk : q.1 == k
    · refine ⟨(k, v), List.mem_map.mpr ⟨q, hq, by rw [if_pos hqk]⟩, ?_⟩
      have : q.1 = k := by simpa using hqk
      rw [← hqe, this]
    · exact ⟨q, List.mem_map.mpr ⟨q, hq, by rw [if_neg hqk]⟩, hqe⟩
  · apply List.mem_map.mpr
    exact ⟨q, List.mem_append_left _ hq, hqe⟩

/-- Folding `dictInsert` over pairs whose values are determined by their keys
keeps every stored value determined by its key. -/
theorem pyDictFold_prop (f : Str → Nat) :
    ∀ (entries acc : List (Str × Nat)),
      (∀ p ∈ entries, p.2 = f p.1) → (∀ p ∈ acc, p.2 = f p.1) →
      ∀ p ∈ entries.foldl (fun d q => dictInsert d q.1 q.2) acc, p.2 = f p.1 := by
  intro entries
  induction entries with
  | nil => intro acc _ hacc p hp; exact hacc p hp
  | cons q qs ih =>
    intro acc hent hacc p hp
    rw [List.foldl_cons] at hp
    have hq2 : q.2 = f q.1 := hent q (List.mem_cons_self q qs)
    refine ih (dictInsert acc q.1 q.2) (fun r hr => hent r (List.mem_cons_of_mem q hr))
      ?_ p hp
    rw [hq2]
    exact dictInsert_prop f acc q.1 hacc

/-- Every inserted key ends up among the folded dict's keys. -/
theorem pyDictFold_keys (x : Str) :
    ∀ (entries acc : List (Str × Nat)),
      (x ∈ acc.map Prod.fst ∨ x ∈ entries.map Prod.fst) →
      x ∈ (entries.foldl (fun d q => dictInsert d q.1 q.2) acc).map Prod.fst := by
  intro entries
  induction entries with
  | nil =>
    intro acc hx
    rcases hx with hx | hx
    · exact hx
    · simp at hx
  | cons q qs ih =>
    intro acc hx
    rw [List.foldl_cons]
    rcases hx with hx | hx
    · exact ih _ (Or.inl (dictInsert_keys_mono acc q.1 q.2 x hx))
    · rcases List.mem_map.mp hx with ⟨r, hr, hre⟩
      rcases List.mem_cons.mp hr with hr | hr
      · apply ih _ (Or.inl ?_)
        rw [← hre, hr]
        exact dictInsert_mem_keys acc q.1 q.2
      · exact ih _ (Or.inr (List.mem_map.mpr ⟨r, hr, hre⟩))

/-- Looking a present key up in a dict whose values are key-determined. -/
theorem lookup_of_prop (f : Str → Nat) :
    ∀ (l : List (Str × Nat)), (∀ p ∈ l, p.2 = f p.1) →
      ∀ d, d ∈ l.map Prod.fst → List.lookup d l = some (f d) := by
  intro l
  induction l with
  | nil => intro _ d hd; simp at hd
  | cons kv rest ih =>
    obtain ⟨k, v⟩ := kv
    intro hl d hd
    simp only [List.lookup]
    cases hdk : d == k with
    | true =>
      have h1 : v = f k := hl (k, v) (List.mem_cons_self _ rest)
      have h2 : d = k := by simpa using hdk
      rw [h1, h2]
    | false =>
      apply ih (fun p hp => hl p (List.mem_cons_of_mem _ hp)) d
      rcases List.mem_map.mp hd with ⟨q, hq, hqe⟩
      rcases List.mem_cons.mp hq with hq | hq
      · exfalso
        have hde : d = k := by rw [← hqe, hq]
        simp [hde] at hdk
      · exact List.mem_map.mpr ⟨q, hq, hqe⟩

/-- The word-count dict maps every corpus document to its space count + 1. -/
theorem numWordsDict_lookup (corpus : List Str) (d : Str) (hd : d ∈ corpus) :
    List.lookup d (numWordsDict corpus) = some (strCount d " ".data + 1) := by
  apply lookup_of_prop (fun x => strCount x " ".data + 1)
  · unfold numWordsDict pyDict
    refine pyDictFold_prop (fun x => strCount x " ".data + 1) _ [] ?_ ?_
    · intro p hp
      rcases List.mem_map.mp hp with ⟨doc, _, hde⟩
      rw [← hde]
    · intro p hp
      simp at hp
  · apply pyDictFold_keys
    right
    rw [List.map_map]
    apply List.mem_map.mpr
    exact ⟨d, hd, rfl⟩

/-- C7 witness: on `archMeta`, `metadata()` collects exactly the two tail
`M` entries, keyed by lowercased url, valued with their article bytes. -/
theorem metadata_tail_run_witness :
    metadata archMeta 1 = .ok ((List.range 2).map fun j =>
      (pyLower (archMeta.entryAt (archMeta.articleCount - 1 - j)).url,
        (archMetaArts j).data)) :=
  metadata_tail_run archMeta 1 2 archMetaArts (by decide) (by decide) (by decide)
    (by decide)

/-- C9: inside `calculate_scores` (after both query and corpus are
lowercased), the document frequency paired with each query term is the
number of corpus documents containing the term as a **substring** — the scan
`containsSub` counts precisely the substring decompositions `SubstrOf`, not
whitespace tokens — and the word count stored for each document is its count
of `' '` characters plus one. -/
theorem bm25_df_substring_and_word_count (query corpus : List Str)
    (h : corpus ≠ []) :
    (∀ p ∈ queryTerms (query.map pyLower) (corpus.map pyLower),
      p.2 = (corpus.map pyLower).countP (fun d => containsSub p.1 d)) ∧
    (∀ t d : Str, containsSub t d = true ↔ SubstrOf t d) ∧
    (∀ d ∈ corpus.map pyLower,
      List.lookup d (numWordsDict (corpus.map pyLower)) =
        some (d.count ' ' + 1)) := by
  refine ⟨?_, containsSub_iff, ?_⟩
  · intro p hp
    unfold queryTerms at hp
    obtain ⟨term, _, hpe⟩ := List.mem_map.mp hp
    rw [← hpe]
    rw [show ((term, (corpus.map pyLower).foldl
      (fun frequency document =>
        frequency + if strFind document term > -1 then 1 else 0) 0) : Str × Nat).2 =
      (corpus.map pyLower).foldl
        (fun frequency document =>
          frequency + if strFind document term > -1 then 1 else 0) 0 from rfl]
    rw [tally_eq_countP]
    simp
  · intro d hd
    rw [numWordsDict_lookup _ _ hd, strCount_space]

/-- C9 witness: the characterisation instantiated on a concrete query and
corpus. -/
theorem bm25_df_substring_and_word_count_witness :
    (∀ p ∈ queryTerms (["B".data].map pyLower) ((["a b".data, "c".data]).map pyLower),
      p.2 = ((["a b".data, "c".data]).map pyLower).countP
        (fun d => containsSub p.1 d)) ∧
    (∀ t d : Str, containsSub t d = true ↔ SubstrOf t d) ∧
    (∀ d ∈ (["a b".data, "c".data]).map pyLower,
      List.lookup d (numWordsDict ((["a b".data, "c".data]).map pyLower)) =
        some (d.count ' ' + 1)) :=
  bm25_df_substring_and_word_count ["B".data] ["a b".data, "c".data] (by decide)

/-- C10: for a non-empty corpus `calculate_scores` returns one score per
corpus document, the i-th score being `docScore` of the i-th (lowercased)
document: corpus order is preserved. -/
theorem calculate_scores_corpus_order (k1 b : ℝ) (query corpus : List Str)
    (h : corpus ≠ []) :
    ∃ scores, calculate_scores k1 b query corpus = some scores ∧
      scores.length = corpus.length ∧
      ∀ i, i < corpus.length →
        scores[i]? = (corpus[i]?).map (fun d =>
          docScore k1 b corpus.length
            (queryTerms (query.map pyLower) (corpus.map pyLower))
            (numWordsDict (corpus.map pyLower))
            (avgDocLen (numWordsDict (corpus.map pyLower)) corpus.length)
            (pyLower d)) := by
  refine ⟨(corpus.map pyLower).map (docScore k1 b corpus.length
    (queryTerms (query.map pyLower) (corpus.map pyLower))
    (numWordsDict (corpus.map pyLower))
    (avgDocLen (numWordsDict (corpus.map pyLower)) corpus.length)), ?_, ?_, ?_⟩
  · unfold calculate_scores
    rw [if_neg h]
  · simp
  · intro i _
    rw [List.getElem?_map, List.getElem?_map, Option.map_map]
    rfl

/-- C10 witness: the shape statement instantiated on a concrete corpus. -/
theorem calculate_scores_corpus_order_witness :
    ∃ scores, calculate_scores 1.2 0.75 ["a".data] ["x y".data, "z".data] =
        some scores ∧
      scores.length = 2 ∧
      ∀ i, i < 2 →
        scores[i]? = ((["x y".data, "z".data])[i]?).map (fun d =>
          docScore 1.2 0.75 2
            (queryTerms (["a".data].map pyLower) ((["x y".data, "z".data]).map pyLower))
            (numWordsDict ((["x y".data, "z".data]).map pyLower))
            (avgDocLen (numWordsDict ((["x y".data, "z".data]).map pyLower)) 2)
            (pyLower d)) :=
  calculate_scores_corpus_order 1.2 0.75 ["a".data] ["x y".data, "z".data] (by decide)


end Zimply
